import Mathlib

/-!
Verification of the `subst` shell-style variable-substitution library.

The development shallowly embeds the two implementations present in the
crate:

* the pipeline in `lib.rs` (`TemplateParser`, `TemplateExpander`,
  `substitute`, `find_non_escaped`), prefixed `lib` below, and
* the pipeline in `template/raw/{parse,expand}.rs`
  (`Template::parse`, `Variable::parse`, `find_closing_brace`,
  `Expand for Template/Variable`), prefixed `raw` below.

Byte strings are lists of natural numbers (each a byte value).  Variable
maps are functions from name bytes to optional value bytes.  Fallible
computations return `PRes`: `ok`, `err` (a returned `Error`), `panic`
(a Rust panic, e.g. an out-of-bounds index or a failed `unwrap`), or
`more` (artificial fuel exhaustion of the embedding; the Rust loops all
terminate, and every claim below is stated so that `more` never matters).
-/

/-- Byte strings: lists of byte values. -/
abbrev Bytes := List Nat

/-- Rust `c.is_ascii_alphanumeric() || c == b'_'` — the variable-name byte class. -/
def isNameByte (b : Nat) : Bool :=
  (0x30 ≤ b && b ≤ 0x39) || (0x41 ≤ b && b ≤ 0x5A) || (0x61 ≤ b && b ≤ 0x7A) || b == 0x5F

/-- Rust `slice.iter().position(p)`: index of the first byte satisfying `p`. -/
def bytePos (p : Nat → Bool) : Bytes → Option Nat
  | [] => none
  | b :: rest => if p b then some 0 else (bytePos p rest).map (· + 1)

/-- Rust `memchr::memchr2 a b`: first index of byte `a` or byte `b`. -/
def memchr2 (a b : Nat) (hay : Bytes) : Option Nat :=
  bytePos (fun c => c == a || c == b) hay

/-- Rust `memchr::memchr3 a b c`: first index of byte `a`, `b` or `c`. -/
def memchr3 (a b c : Nat) (hay : Bytes) : Option Nat :=
  bytePos (fun x => x == a || x == b || x == c) hay

/-- The Rust slice `s[a..b]` (as a value; bounds are checked at use sites). -/
def listSlice (s : Bytes) (a b : Nat) : Bytes :=
  (s.drop a).take (b - a)

/-- UTF-8 continuation byte: `0x80..=0xBF`. -/
def isCont (b : Nat) : Bool := 0x80 ≤ b && b < 0xC0

/-- Validity of a byte string as UTF-8 (the strict form accepted by
`std::str::from_utf8`: no overlong encodings, no surrogates, maximum
scalar value `0x10FFFF`). -/
inductive Utf8V : Bytes → Prop where
  | nil : Utf8V []
  | one {b : Nat} {r : Bytes} : b < 0x80 → Utf8V r → Utf8V (b :: r)
  | two {b b1 : Nat} {r : Bytes} : 0xC2 ≤ b → b ≤ 0xDF → isCont b1 = true →
      Utf8V r → Utf8V (b :: b1 :: r)
  | three {b b1 b2 : Nat} {r : Bytes} : 0xE0 ≤ b → b ≤ 0xEF →
      isCont b1 = true → isCont b2 = true →
      (b = 0xE0 → 0xA0 ≤ b1) → (b = 0xED → b1 < 0xA0) →
      Utf8V r → Utf8V (b :: b1 :: b2 :: r)
  | four {b b1 b2 b3 : Nat} {r : Bytes} : 0xF0 ≤ b → b ≤ 0xF4 →
      isCont b1 = true → isCont b2 = true → isCont b3 = true →
      (b = 0xF0 → 0x90 ≤ b1) → (b = 0xF4 → b1 < 0x90) →
      Utf8V r → Utf8V (b :: b1 :: b2 :: b3 :: r)

/-- Decode the first UTF-8 scalar of a byte string: `some (codepoint, byteLength)`
when the string starts with a complete valid scalar, `none` otherwise. -/
def utf8DecodeFirst : Bytes → Option (Nat × Nat)
  | [] => none
  | b :: rest =>
    if b < 0x80 then some (b, 1)
    else if 0xC2 ≤ b && b ≤ 0xDF then
      match rest with
      | b1 :: _ => if isCont b1 then some ((b - 0xC0) * 0x40 + (b1 - 0x80), 2) else none
      | [] => none
    else if 0xE0 ≤ b && b ≤ 0xEF then
      match rest with
      | b1 :: b2 :: _ =>
        if isCont b1 && isCont b2 &&
            (!(b == 0xE0) || 0xA0 ≤ b1) && (!(b == 0xED) || b1 < 0xA0) then
          some ((b - 0xE0) * 0x1000 + (b1 - 0x80) * 0x40 + (b2 - 0x80), 3)
        else none
      | _ => none
    else if 0xF0 ≤ b && b ≤ 0xF4 then
      match rest with
      | b1 :: b2 :: b3 :: _ =>
        if isCont b1 && isCont b2 && isCont b3 &&
            (!(b == 0xF0) || 0x90 ≤ b1) && (!(b == 0xF4) || b1 < 0x90) then
          some ((b - 0xF0) * 0x40000 + (b1 - 0x80) * 0x1000 + (b2 - 0x80) * 0x40 + (b3 - 0x80), 4)
        else none
      | _ => none
    else none

/-- Loop of the executable UTF-8 validity check: repeatedly decode the
first scalar and drop its bytes.  The fuel only bounds the loop; each
decoded scalar consumes at least one byte. -/
def utf8CheckGo : Nat → Bytes → Bool
  | _, [] => true
  | 0, _ :: _ => false
  | f + 1, b :: rest =>
    if b < 0x80 then utf8CheckGo f rest
    else
      match utf8DecodeFirst (b :: rest) with
      | some (_, n) => utf8CheckGo f ((b :: rest).drop n)
      | none => false

/-- Executable UTF-8 validity check, mirroring `std::str::from_utf8`
succeeding on the whole input. -/
def utf8Check (l : Bytes) : Bool :=
  utf8CheckGo l.length l

/-- Rust `error::CharOrByte`: a decoded character (by codepoint) or a raw byte. -/
inductive CharOrByte : Type where
  | char (c : Nat)
  | byte (b : Nat)
deriving DecidableEq

/-- Rust `CharOrByte::source_len`: UTF-8 length of the character, or 1 for a byte
(`char::len_utf8`). -/
def CharOrByte.sourceLen : CharOrByte → Nat
  | .char c => if c < 0x80 then 1 else if c < 0x800 then 2 else if c < 0x10000 then 3 else 4
  | .byte _ => 1

/-- Rust `error::Error`: the five error kinds of the crate.  Variable names are
kept as byte strings (`String` byte content in the Rust code). -/
inductive Err : Type where
  | invalidEscapeSequence (position : Nat) (character : Option CharOrByte)
  | missingVariableName (position : Nat) (len : Nat)
  | unexpectedCharacter (position : Nat) (character : CharOrByte) (expected : String)
  | missingClosingBrace (position : Nat)
  | noSuchVariable (position : Nat) (name : Bytes)
deriving DecidableEq

/-- Rust `Error::source_range`, translated from `error.rs`: computes `(start, len)`
per kind and returns `start .. start+len` (here as a pair `(start, stop)`). -/
def Err.sourceRange : Err → Nat × Nat
  | .invalidEscapeSequence p c =>
    let charLen := match c with
      | some x => x.sourceLen
      | none => 0
    (p, p + (1 + charLen))
  | .missingVariableName p l => (p, p + l)
  | .unexpectedCharacter p c _ => (p, p + c.sourceLen)
  | .missingClosingBrace p => (p, p + 1)
  | .noSuchVariable p n => (p, p + n.length)

/-- The diagnostics table of the specification, written from its words:
InvalidEscapeSequence spans `position .. position+1+(0 or char length)`;
MissingVariableName spans `position .. position+length`; UnexpectedCharacter
spans `position .. position+char length`; MissingClosingBrace spans
`position .. position+1`; NoSuchVariable spans `position .. position+len(name)`. -/
def Err.sourceRangeSpec : Err → Nat × Nat
  | .invalidEscapeSequence p c =>
    (p, p + 1 + (match c with
      | some x => x.sourceLen
      | none => 0))
  | .missingVariableName p l => (p, p + l)
  | .unexpectedCharacter p c _ => (p, p + c.sourceLen)
  | .missingClosingBrace p => (p, p + 1)
  | .noSuchVariable p n => (p, p + n.length)

/-- Result of an embedded computation: a value, a returned error, a Rust
panic, or fuel exhaustion of the embedding (`more`). -/
inductive PRes (α : Type) : Type where
  | ok (a : α)
  | err (e : Err)
  | panic
  | more
deriving DecidableEq

/-- Monadic bind on `PRes`. -/
def PRes.bind {α β : Type} : PRes α → (α → PRes β) → PRes β
  | .ok a, f => f a
  | .err e, _ => .err e
  | .panic, _ => .panic
  | .more, _ => .more

/-- Map on `PRes`. -/
def PRes.map {α β : Type} (f : α → β) : PRes α → PRes β
  | .ok a => .ok (f a)
  | .err e => .err e
  | .panic => .panic
  | .more => .more

/-- Rust `get_maybe_char_at(data, index)` (identical copies in `lib.rs` and
`template/raw/parse.rs`): take up to 4 bytes starting at `index`; report the
first character of the longest valid UTF-8 head, or the raw byte when the
head has no complete leading character.  The `assert!` on an out-of-bounds
index is a panic. -/
def getMaybeCharAt (data : Bytes) (index : Nat) : PRes CharOrByte :=
  if index < data.length then
    let head := (data.drop index).take 4
    match utf8DecodeFirst head with
    | some (c, _) => .ok (.char c)
    | none => .ok (.byte ((data[index]?).getD 0))
  else .panic

/-- Rust `unescape_one(source, position)` (identical copies in `lib.rs` and
`template/raw/parse.rs`): decode one escape sequence; `position` points at
the backslash. -/
def unescapeOne (source : Bytes) (position : Nat) : PRes Nat :=
  if position == source.length - 1 then
    .err (.invalidEscapeSequence position none)
  else
    match source[position + 1]? with
    | none => .panic
    | some c =>
      if c == 0x5C then .ok 0x5C
      else if c == 0x24 then .ok 0x24
      else if c == 0x7B then .ok 0x7B
      else if c == 0x7D then .ok 0x7D
      else if c == 0x3A then .ok 0x3A
      else (getMaybeCharAt source (position + 1)).bind fun ch =>
        .err (.invalidEscapeSequence position (some ch))

/-- Loop of `find_non_escaped` from `lib.rs`: scan for the first occurrence
of `needle` that is not preceded by a backslash.  (No nesting counter.)
The fuel only bounds the loop, which advances the finger by at least two
bytes per iteration. -/
def findNonEscapedGo : Nat → Nat → Bytes → Nat → Option Nat
  | 0, _, _, _ => none
  | f + 1, needle, haystack, finger =>
    if finger < haystack.length then
      match memchr2 0x5C needle (haystack.drop finger) with
      | none => none
      | some candidate =>
        if ((haystack[finger + candidate]?).getD 0) == 0x5C then
          if candidate == haystack.length - 1 then none
          else findNonEscapedGo f needle haystack (finger + candidate + 2)
        else some (finger + candidate)
    else none

/-- Rust `find_non_escaped(needle, haystack)` from `lib.rs`. -/
def findNonEscaped (needle : Nat) (haystack : Bytes) : Option Nat :=
  findNonEscapedGo (haystack.length + 1) needle haystack 0

/-- Loop of `find_closing_brace` from `template/raw/parse.rs`: scan for the
matching closing brace, counting brace nesting (`nested` is a signed
counter).  The final `none` of the match stands for the `unreachable!()`
branch, which is dead because `memchr3` only reports those three bytes. -/
def findClosingBraceGo : Nat → Bytes → Nat → Int → Option Nat
  | 0, _, _, _ => none
  | f + 1, haystack, finger, nested =>
    if finger < haystack.length then
      match memchr3 0x5C 0x7B 0x7D (haystack.drop finger) with
      | none => none
      | some next =>
        let c := (haystack[finger + next]?).getD 0
        if c == 0x5C then
          if next + 1 == haystack.length then none
          else findClosingBraceGo f haystack (finger + next + 2) nested
        else if c == 0x7B then
          if next == haystack.length - 1 then none
          else findClosingBraceGo f haystack (finger + next + 1) (nested + 1)
        else if c == 0x7D then
          if nested - 1 == 0 then some (finger + next)
          else findClosingBraceGo f haystack (finger + next + 1) (nested - 1)
        else none
    else none

/-- Rust `find_closing_brace(haystack)` from `template/raw/parse.rs`. -/
def findClosingBrace (haystack : Bytes) : Option Nat :=
  findClosingBraceGo (haystack.length + 1) haystack 0 0

/-- Rust `TemplatePart` of `lib.rs`: a literal (the sliced text itself), an
escaped character, or a variable (`part_start`, `part_end`, name bytes,
`name_start`, optional default parts). -/
inductive LibPart : Type where
  | literal (text : Bytes)
  | escapedChar (c : Nat)
  | variable (partStart partStop : Nat) (name : Bytes) (nameStart : Nat)
      (default : Option (List LibPart))

/-- Rust `ByteLength::size` of `lib.rs`. -/
def LibPart.size : LibPart → Nat
  | .literal t => t.length
  | .escapedChar _ => 2
  | .variable ps pe _ _ _ => pe - ps

/-- Rust `TemplateExpander`'s configuration state (the variable map and byte
conversion are passed separately in this embedding). -/
structure TemplateExpanderCfg : Type where
  silent_missing_variables : Bool

/-- Rust `TemplateExpander::new`: silent missing variables start disabled. -/
def TemplateExpanderCfg.new : TemplateExpanderCfg :=
  { silent_missing_variables := false }

/-- Rust `TemplateExpander::set_silent_missing_variables`. -/
def TemplateExpanderCfg.set_silent_missing_variables
    (cfg : TemplateExpanderCfg) (value : Bool) : TemplateExpanderCfg :=
  { cfg with silent_missing_variables := value }

/-- Rust `TemplateParser::check_variable_name_for_validity`.  The flag
`allow` is `allow_variable_name_starting_with_number`.  Indexing
`name.as_bytes()[0]` and the `reduce(..).unwrap()` panic on an empty name. -/
def checkVariableNameForValidity (allow : Bool) (finger : Nat) (name : Bytes) : PRes Unit :=
  if allow then .ok ()
  else
    match name[0]? with
    | none => .panic
    | some c =>
      if 0x30 ≤ c && c ≤ 0x39 then
        if name.all (fun b => 0x30 ≤ b && b ≤ 0x39) then .ok ()
        else .err (.unexpectedCharacter finger (.byte c) "0..9 not allowed as variable name start!")
      else .ok ()

/-- Rust `TemplateParser::parse_braced_variable` from `lib.rs`, with the
recursive range parse abstracted as `parseRange start stop`.  The closing
brace of a default value is located with `find_non_escaped` (first
non-escaped `}`, with no nesting counter). -/
def libParseBracedVariableF (parseRange : Nat → Nat → PRes (List LibPart)) (allow : Bool)
    (source : Bytes) (finger : Nat) : PRes LibPart :=
  let nameStart := finger + 2
  if nameStart ≥ source.length then .err (.missingVariableName finger 2)
  else
    match bytePos (fun c => !(isNameByte c)) (source.drop nameStart) with
    | some 0 => .err (.missingVariableName finger 2)
    | posRes =>
      let nameStop := match posRes with
        | some x => nameStart + x
        | none => source.length
      if nameStop == source.length then .err (.missingClosingBrace (finger + 1))
      else
        match source[nameStop]? with
        | none => .panic
        | some cAfter =>
          if cAfter == 0x7D then
            let name := listSlice source nameStart nameStop
            if utf8Check name then
              (checkVariableNameForValidity allow finger name).bind fun _ =>
              .ok (.variable finger (nameStop + 1) name nameStart none)
            else .panic
          else if !(cAfter == 0x3A) then
            (getMaybeCharAt source nameStop).bind fun ch =>
            .err (.unexpectedCharacter nameStop ch "a closing brace or colon")
          else
            match findNonEscaped 0x7D (source.drop finger) with
            | none => .err (.missingClosingBrace (finger + 1))
            | some rel =>
              let stop := finger + rel
              (parseRange (nameStop + 1) stop).bind fun defaultValue =>
              let name := listSlice source nameStart nameStop
              if utf8Check name then
                (checkVariableNameForValidity allow finger name).bind fun _ =>
                .ok (.variable finger (stop + 1) name nameStart (some defaultValue))
              else .panic

/-- Rust `TemplateParser::parse_variable` from `lib.rs`, with the recursive
range parse abstracted as `parseRange start stop`.  The bounds check
compares `finger` against `source.len()` (not `source.len() - 1`), so the
subsequent `source[finger + 1]` panics when the dollar sign is the final
byte. -/
def libParseVariableF (parseRange : Nat → Nat → PRes (List LibPart)) (allow : Bool)
    (source : Bytes) (finger : Nat) : PRes LibPart :=
  if finger == source.length then .err (.missingVariableName finger 1)
  else
    match source[finger + 1]? with
    | none => .panic
    | some c1 =>
      if c1 == 0x7B then libParseBracedVariableF parseRange allow source finger
      else
        match bytePos (fun c => !(isNameByte c)) (source.drop (finger + 1)) with
        | some 0 => .err (.missingVariableName finger 1)
        | posRes =>
          let nameStop := match posRes with
            | some x => finger + 1 + x
            | none => source.length
          let name := listSlice source (finger + 1) nameStop
          if utf8Check name then
            (checkVariableNameForValidity allow finger name).bind fun _ =>
            .ok (.variable finger nameStop name (finger + 1) none)
          else .panic

/-- Rust `TemplateParser::parse_template_one_step` from `lib.rs`, with variable
parsing abstracted as `parseVar`.  `source.get(finger).unwrap()` and an
out-of-range literal slice are panics. -/
def libParseOneStepF (parseVar : Nat → PRes LibPart) (source : Bytes)
    (rstop finger : Nat) : PRes (Option LibPart) :=
  if finger ≥ rstop then .ok none
  else
    match source[finger]? with
    | none => .panic
    | some c =>
      if c == 0x24 then (parseVar finger).map some
      else if c == 0x5C then
        (unescapeOne source finger).map fun u => some (.escapedChar u)
      else
        if rstop ≤ source.length then
          match memchr2 0x24 0x5C (listSlice source finger rstop) with
          | some x => .ok (some (.literal (listSlice source finger (finger + x))))
          | none => .ok (some (.literal (listSlice source finger rstop)))
        else .panic

/-- Loop of `TemplateParser::parse_template_range` from `lib.rs`: repeat
`parse_template_one_step`, advancing the finger by each part's size.  The
fuel decreases on every recursive call (both the loop and the recursive
default-value parse). -/
def libParseRangeGo : Nat → Bool → Bytes → Nat → Nat → PRes (List LibPart)
  | 0, _, _, _, _ => .more
  | f + 1, allow, source, rstop, finger =>
    match libParseOneStepF
        (libParseVariableF (fun a b => libParseRangeGo f allow source b a) allow source)
        source rstop finger with
    | .ok none => .ok []
    | .ok (some part) =>
      (libParseRangeGo f allow source rstop (finger + part.size)).map fun rest =>
        part :: rest
    | .err e => .err e
    | .panic => .panic
    | .more => .more

/-- Default fuel: generous bound on the number of recursive calls any of
the embedded loops can make on the given source. -/
def bigFuel (source : Bytes) : Nat :=
  (source.length + 2) * (source.length + 2)

/-- Rust `TemplateParser::parse_template_range(source, range)` from `lib.rs`. -/
def libParseRange (allow : Bool) (source : Bytes) (rstart rstop : Nat) : PRes (List LibPart) :=
  libParseRangeGo (bigFuel source) allow source rstop rstart

/-- A variable map: `VariableMap::get` as a function from name bytes to
optional value bytes (the `Value -> byte slice` conversion is applied). -/
abbrev VarMap := Bytes → Option Bytes

/-- Rust `TemplateExpander::expand_template_part_variable` from `lib.rs`, with
the recursive default expansion abstracted as `recurse`.  `out` is the
output buffer being extended. -/
def libExpandVariableF (recurse : List LibPart → Bytes → PRes Bytes) (silent : Bool)
    (vars : VarMap) (name : Bytes) (nameStart : Nat)
    (default : Option (List LibPart)) (out : Bytes) : PRes Bytes :=
  match vars name, default with
  | none, none =>
    if !silent then .err (.noSuchVariable nameStart name) else .ok out
  | some value, _ => .ok (out ++ value)
  | none, some d => recurse d out

/-- Rust `TemplateExpander::expand_template_impl` from `lib.rs` (together with
the per-part helpers `expand_template_part{,_literal,_escaped_char}`):
expand each part in order into the output buffer. -/
def libExpandGo : Nat → Bool → VarMap → List LibPart → Bytes → PRes Bytes
  | 0, _, _, _, _ => .more
  | _ + 1, _, _, [], out => .ok out
  | f + 1, silent, vars, part :: rest, out =>
    match part with
    | .literal t => libExpandGo f silent vars rest (out ++ t)
    | .escapedChar c => libExpandGo f silent vars rest (out ++ [c])
    | .variable _ _ name nameStart default =>
      match libExpandVariableF (fun d o => libExpandGo f silent vars d o)
          silent vars name nameStart default out with
      | .ok out2 => libExpandGo f silent vars rest out2
      | .err e => .err e
      | .panic => .panic
      | .more => .more

/-- Rust `substitute(source, variables)` from `lib.rs`, fuel-explicit: parse the
whole source with `allow_variable_name_starting_with_number = true`, then
expand with a `TemplateExpander::new` configuration (output bytes; the
`String::from_utf8_unchecked` wrapper is the identity on bytes). -/
def libSubstituteF (f : Nat) (source : Bytes) (vars : VarMap) : PRes Bytes :=
  (libParseRangeGo f true source source.length 0).bind fun parts =>
  libExpandGo f TemplateExpanderCfg.new.silent_missing_variables vars parts []

/-- Rust `substitute(source, variables)` from `lib.rs`. -/
def libSubstitute (source : Bytes) (vars : VarMap) : PRes Bytes :=
  libSubstituteF (bigFuel source) source vars

/-- Rust `Part` of `template/raw/mod.rs`: a literal (byte range into the
source), an escaped byte, or a variable (name byte range and optional
default template, the template being its list of parts). -/
inductive RawPart : Type where
  | literal (rstart rstop : Nat)
  | escapedByte (value : Nat)
  | variable (nameStart nameStop : Nat) (default : Option (List RawPart))

/-- Rust `Variable::parse_braced` from `template/raw/parse.rs`, with the
recursive `Template::parse` abstracted as `parse source start`.  Returns
the variable and the index of the byte after it.  The name byte class
additionally admits `*`, rejected afterwards when the name is longer than
one byte; the default value is parsed from the truncated slice
`source[..stop]` with absolute start offset. -/
def rawParseBracedF (parse : Bytes → Nat → PRes (List RawPart))
    (source : Bytes) (finger : Nat) : PRes (RawPart × Nat) :=
  let nameStart := finger + 2
  if nameStart ≥ source.length then .err (.missingVariableName finger 2)
  else
    match bytePos (fun c => !(isNameByte c) && !(c == 0x2A)) (source.drop nameStart) with
    | some 0 => .err (.missingVariableName finger 2)
    | posRes =>
      let nameStop := match posRes with
        | some x => nameStart + x
        | none => source.length
      if nameStop == source.length then .err (.missingClosingBrace (finger + 1))
      else if nameStop - nameStart > 1 && (listSlice source nameStart nameStop).contains 0x2A then
        .err (.missingVariableName finger (nameStop - nameStart))
      else
        match source[nameStop]? with
        | none => .panic
        | some cAfter =>
          if cAfter == 0x7D then .ok (.variable nameStart nameStop none, nameStop + 1)
          else if !(cAfter == 0x3A) then
            (getMaybeCharAt source nameStop).bind fun ch =>
            .err (.unexpectedCharacter nameStop ch "a closing brace or colon")
          else
            match findClosingBrace (source.drop finger) with
            | none => .err (.missingClosingBrace (finger + 1))
            | some rel =>
              let stop := finger + rel
              (parse (source.take stop) (nameStop + 1)).map fun defaultParts =>
                (.variable nameStart nameStop (some defaultParts), stop + 1)

/-- Rust `Variable::parse` from `template/raw/parse.rs`, with the recursive
`Template::parse` abstracted as `parse`.  A `$` as final byte is caught by
the `finger + 1 >= source.len()` check; `$*` is accepted as the one-byte
wildcard name. -/
def rawParseVariableF (parse : Bytes → Nat → PRes (List RawPart))
    (source : Bytes) (finger : Nat) : PRes (RawPart × Nat) :=
  if finger + 1 ≥ source.length then .err (.missingVariableName finger 1)
  else
    match source[finger + 1]? with
    | none => .panic
    | some c1 =>
      if c1 == 0x7B then rawParseBracedF parse source finger
      else if c1 == 0x2A then
        .ok (.variable (finger + 1) (finger + 2) none, finger + 2)
      else
        match bytePos (fun c => !(isNameByte c)) (source.drop (finger + 1)) with
        | some 0 => .err (.missingVariableName finger 1)
        | some x => .ok (.variable (finger + 1) (finger + 1 + x) none, finger + 1 + x)
        | none => .ok (.variable (finger + 1) source.length none, source.length)

/-- Loop of `Template::parse` from `template/raw/parse.rs`: scan from
`finger` to the end of the source, peeling a leading literal up to the
next `$` or backslash, then an escape sequence or a variable.  The fuel
decreases on every recursive call (loop continuation and the recursive
default-value parse alike). -/
def rawParseGo : Nat → Bytes → Nat → PRes (List RawPart)
  | 0, _, _ => .more
  | f + 1, source, finger =>
    if finger < source.length then
      let next := match memchr2 0x24 0x5C (source.drop finger) with
        | some x => finger + x
        | none => source.length
      let lits : List RawPart := if !(next == finger) then [.literal finger next] else []
      if next == source.length then .ok lits
      else if ((source[next]?).getD 0) == 0x5C then
        match unescapeOne source next with
        | .ok value =>
          (rawParseGo f source (next + 2)).map fun rest =>
            lits ++ .escapedByte value :: rest
        | .err e => .err e
        | .panic => .panic
        | .more => .more
      else
        match rawParseVariableF (fun src st => rawParseGo f src st) source next with
        | .ok (v, stop) =>
          (rawParseGo f source stop).map fun rest => lits ++ v :: rest
        | .err e => .err e
        | .panic => .panic
        | .more => .more
    else .ok []

/-- Rust `Template::parse(source, start)` from `template/raw/parse.rs`. -/
def rawParse (source : Bytes) (start : Nat) : PRes (List RawPart) :=
  rawParseGo (bigFuel source) source start

/-- Rust `<Variable as Expand>::expand` from `template/raw/expand.rs`, with the
recursive default-template expansion abstracted as `recurse`.  The name is
sliced from the source (a panic if the range is out of bounds) and
converted with `std::str::from_utf8(..).unwrap()` (a panic if the bytes
are not valid UTF-8). -/
def rawExpandVariableF (recurse : List RawPart → Bytes → PRes Bytes)
    (source : Bytes) (vars : VarMap) (nameStart nameStop : Nat)
    (default : Option (List RawPart)) (out : Bytes) : PRes Bytes :=
  if nameStart ≤ nameStop && nameStop ≤ source.length then
    let name := listSlice source nameStart nameStop
    if utf8Check name then
      match vars name with
      | some value => .ok (out ++ value)
      | none =>
        match default with
        | some d => recurse d out
        | none => .err (.noSuchVariable nameStart name)
    else .panic
  else .panic

/-- Rust `<Template as Expand>::expand` from `template/raw/expand.rs`: expand
the parts in order; a literal's range is sliced from the source (a panic
if out of bounds). -/
def rawExpandGo : Nat → Bytes → VarMap → List RawPart → Bytes → PRes Bytes
  | 0, _, _, _, _ => .more
  | _ + 1, _, _, [], out => .ok out
  | f + 1, source, vars, part :: rest, out =>
    match part with
    | .literal a b =>
      if a ≤ b && b ≤ source.length then
        rawExpandGo f source vars rest (out ++ listSlice source a b)
      else .panic
    | .escapedByte value => rawExpandGo f source vars rest (out ++ [value])
    | .variable nameStart nameStop default =>
      match rawExpandVariableF (fun d o => rawExpandGo f source vars d o)
          source vars nameStart nameStop default out with
      | .ok out2 => rawExpandGo f source vars rest out2
      | .err e => .err e
      | .panic => .panic
      | .more => .more

/-- Rust `Template::from_str` / `ByteTemplate::from_slice` from
`template/mod.rs`: parse the whole source at offset 0. -/
def templateFromSource (source : Bytes) : PRes (List RawPart) :=
  rawParse source 0

/-- Rust `Template::expand` / `ByteTemplate::expand` from `template/mod.rs`:
expand the raw template against the template's own source into a fresh
buffer (the `String::from_utf8_unchecked` of the text version is the
identity on bytes). -/
def templateExpand (source : Bytes) (raw : List RawPart) (vars : VarMap) : PRes Bytes :=
  rawExpandGo (bigFuel source) source vars raw []

/-- Rust `TemplateBuf` from `template/mod.rs`: an owned source buffer paired
with the raw template parsed from it (the parsed view, modelled by its
offset content). -/
structure TemplateBuf : Type where
  source : Bytes
  raw : List RawPart

/-- Rust `TemplateBuf::from_string`: take ownership of the source and parse it. -/
def TemplateBuf.from_string (source : Bytes) : PRes TemplateBuf :=
  (templateFromSource source).map fun raw => { source := source, raw := raw }

/-- Rust `Clone for TemplateBuf`: deep-copy the source buffer, clone the raw
view, and rebuild the template to reference the copied buffer. -/
def TemplateBuf.clone (t : TemplateBuf) : TemplateBuf :=
  { source := t.source, raw := t.raw }

/-- Rust `TemplateBuf::expand`: delegate to the borrowed template's expand. -/
def TemplateBuf.expand (t : TemplateBuf) (vars : VarMap) : PRes Bytes :=
  templateExpand t.source t.raw vars

/-- Rust `ByteTemplateBuf` from `template/mod.rs`: the byte-vector owning
variant. -/
structure ByteTemplateBuf : Type where
  source : Bytes
  raw : List RawPart

/-- Rust `ByteTemplateBuf::from_vec`. -/
def ByteTemplateBuf.from_vec (source : Bytes) : PRes ByteTemplateBuf :=
  (templateFromSource source).map fun raw => { source := source, raw := raw }

/-- Rust `Clone for ByteTemplateBuf`: deep-copy the source vector, clone the
raw view, and rebuild the template to reference the copied buffer. -/
def ByteTemplateBuf.clone (t : ByteTemplateBuf) : ByteTemplateBuf :=
  { source := t.source, raw := t.raw }

/-- Rust `ByteTemplateBuf::expand`. -/
def ByteTemplateBuf.expand (t : ByteTemplateBuf) (vars : VarMap) : PRes Bytes :=
  templateExpand t.source t.raw vars

/-! ### Helper lemmas: byte scanning -/

theorem bytePos_some_get {p : Nat → Bool} {l : Bytes} {i : Nat}
    (h : bytePos p l = some i) : ∃ b, l[i]? = some b ∧ p b = true := by
  induction l generalizing i with
  | nil => simp [bytePos] at h
  | cons x xs ih =>
    rw [bytePos] at h
    by_cases hp : p x
    · simp [hp] at h
      exact ⟨x, by simp [← h], hp⟩
    · simp [hp] at h
      obtain ⟨j, hj, rfl⟩ := h
      obtain ⟨b, hb, hpb⟩ := ih hj
      exact ⟨b, by simpa using hb, hpb⟩

theorem bytePos_some_lt {p : Nat → Bool} {l : Bytes} {i : Nat}
    (h : bytePos p l = some i) : i < l.length := by
  obtain ⟨b, hb, _⟩ := bytePos_some_get h
  exact (List.getElem?_eq_some.mp hb).1

theorem bytePos_prior {p : Nat → Bool} {l : Bytes} {i : Nat}
    (h : bytePos p l = some i) :
    ∀ j, j < i → ∀ b, l[j]? = some b → p b = false := by
  induction l generalizing i with
  | nil => simp [bytePos] at h
  | cons x xs ih =>
    rw [bytePos] at h
    by_cases hp : p x
    · simp [hp] at h
      omega
    · simp [hp] at h
      obtain ⟨k, hk, rfl⟩ := h
      intro j hj b hb
      cases j with
      | zero =>
        simp at hb
        simpa [← hb] using hp
      | succ j2 =>
        exact ih hk j2 (by omega) b (by simpa using hb)

theorem bytePos_none {p : Nat → Bool} {l : Bytes}
    (h : bytePos p l = none) : ∀ b ∈ l, p b = false := by
  induction l with
  | nil => simp
  | cons x xs ih =>
    rw [bytePos] at h
    by_cases hp : p x
    · simp [hp] at h
    · simp [hp] at h
      intro b hb
      rcases List.mem_cons.mp hb with rfl | hmem
      · simpa using hp
      · exact ih h b hmem

theorem memchr2_some_get {a b : Nat} {hay : Bytes} {i : Nat}
    (h : memchr2 a b hay = some i) :
    ∃ x, hay[i]? = some x ∧ (x = a ∨ x = b) := by
  obtain ⟨x, hx, hpx⟩ := bytePos_some_get h
  refine ⟨x, hx, ?_⟩
  simpa using hpx

theorem memchr3_some_get {a b c : Nat} {hay : Bytes} {i : Nat}
    (h : memchr3 a b c hay = some i) :
    ∃ x, hay[i]? = some x ∧ (x = a ∨ x = b ∨ x = c) := by
  obtain ⟨x, hx, hpx⟩ := bytePos_some_get h
  refine ⟨x, hx, ?_⟩
  simpa [or_assoc] using hpx

theorem getElem?_drop_add (l : Bytes) (n m : Nat) : (l.drop n)[m]? = l[n + m]? := by
  induction l generalizing n with
  | nil => simp
  | cons x xs ih =>
    cases n with
    | zero => simp
    | succ k =>
      rw [List.drop_succ_cons, ih k, Nat.succ_add, List.getElem?_cons_succ]

theorem listSlice_get? {s : Bytes} {a b k : Nat} (h : a + k < b) :
    (listSlice s a b)[k]? = s[a + k]? := by
  rw [listSlice, List.getElem?_take_of_lt (by omega), getElem?_drop_add]

theorem listSlice_length {s : Bytes} {a b : Nat} (hb : b ≤ s.length) (hab : a ≤ b) :
    (listSlice s a b).length = b - a := by
  simp [listSlice]
  omega

theorem listSlice_take_of_le {s : Bytes} {a b e : Nat} (h : b ≤ e) :
    listSlice (s.take e) a b = listSlice s a b := by
  simp only [listSlice, List.drop_take]
  rw [List.take_take]
  congr 1
  omega

theorem findNonEscapedGo_get {f needle : Nat} {hay : Bytes} {finger r : Nat}
    (h : findNonEscapedGo f needle hay finger = some r) :
    hay[r]? = some needle := by
  induction f generalizing finger with
  | zero => simp [findNonEscapedGo] at h
  | succ f ih =>
    rw [findNonEscapedGo] at h
    split at h
    · rename_i hlt
      cases hm : memchr2 0x5C needle (hay.drop finger) with
      | none => simp [hm] at h
      | some candidate =>
        simp only [hm] at h
        obtain ⟨x, hx, hxor⟩ := memchr2_some_get hm
        rw [getElem?_drop_add] at hx
        rw [hx] at h
        simp only [Option.getD_some] at h
        split at h
        · split at h
          · simp at h
          · exact ih h
        · rename_i hne
          simp only [beq_iff_eq] at hne
          have hxn : x = needle := by
            rcases hxor with rfl | rfl
            · exact absurd rfl hne
            · rfl
          simp only [Option.some.injEq] at h
          rw [← h, hx, hxn]
    · simp at h

theorem findClosingBraceGo_get {f : Nat} {hay : Bytes} {finger : Nat} {nested : Int} {r : Nat}
    (h : findClosingBraceGo f hay finger nested = some r) :
    hay[r]? = some 0x7D := by
  induction f generalizing finger nested with
  | zero => simp [findClosingBraceGo] at h
  | succ f ih =>
    rw [findClosingBraceGo] at h
    split at h
    · cases hm : memchr3 0x5C 0x7B 0x7D (hay.drop finger) with
      | none => simp [hm] at h
      | some next =>
        simp only [hm] at h
        obtain ⟨x, hx, hxor⟩ := memchr3_some_get hm
        rw [getElem?_drop_add] at hx
        rw [hx] at h
        simp only [Option.getD_some] at h
        split at h
        · split at h
          · simp at h
          · exact ih h
        · split at h
          · split at h
            · simp at h
            · exact ih h
          · split at h
            · rename_i hne1 hne2 heq
              split at h
              · simp only [Option.some.injEq] at h
                rw [← h, hx]
                simp only [beq_iff_eq] at heq
                rw [heq]
              · exact ih h
            · simp at h
    · simp at h

theorem unescapeOne_ok {source : Bytes} {position v : Nat}
    (h : unescapeOne source position = .ok v) :
    source[position + 1]? = some v ∧ v < 0x80 := by
  rw [unescapeOne] at h
  split at h
  · simp at h
  · cases hg : source[position + 1]? with
    | none => simp [hg] at h
    | some c =>
      rw [hg] at h
      by_cases h1 : c = 0x5C
      · simp [h1] at h; simp [hg, h1, ← h]
      · by_cases h2 : c = 0x24
        · simp [h1, h2] at h; simp [hg, h2, ← h]
        · by_cases h3 : c = 0x7B
          · simp [h1, h2, h3] at h; simp [hg, h3, ← h]
          · by_cases h4 : c = 0x7D
            · simp [h1, h2, h3, h4] at h; simp [hg, h4, ← h]
            · by_cases h5 : c = 0x3A
              · simp [h1, h2, h3, h4, h5] at h; simp [hg, h5, ← h]
              · simp only [h1, h2, h3, h4, h5, beq_iff_eq, if_false] at h
                cases hch : getMaybeCharAt source (position + 1) <;>
                  simp [hch, PRes.bind] at h

/-! ### Helper lemmas: UTF-8 -/

theorem isCont_ge {b : Nat} (h : isCont b = true) : 0x80 ≤ b := by
  simp only [isCont, Bool.and_eq_true, decide_eq_true_eq] at h
  exact h.1

theorem Utf8V.append {xs ys : Bytes} (hx : Utf8V xs) (hy : Utf8V ys) : Utf8V (xs ++ ys) := by
  induction hx with
  | nil => simp only [List.nil_append]; exact hy
  | one h _ ih => exact .one h ih
  | two h1 h2 h3 _ ih => exact .two h1 h2 h3 ih
  | three h1 h2 h3 h4 h5 h6 _ ih => exact .three h1 h2 h3 h4 h5 h6 ih
  | four h1 h2 h3 h4 h5 h6 h7 _ ih => exact .four h1 h2 h3 h4 h5 h6 h7 ih

theorem utf8_split_ascii {zs : Bytes} (h : Utf8V zs) :
    ∀ xs c ys, zs = xs ++ c :: ys → c < 0x80 → Utf8V xs ∧ Utf8V (c :: ys) := by
  induction h with
  | nil =>
    intro xs c ys he _
    cases xs <;> simp at he
  | one hb hr ih =>
    intro xs c ys he hc
    cases xs with
    | nil =>
      simp at he
      obtain ⟨rfl, rfl⟩ := he
      exact ⟨.nil, .one hb hr⟩
    | cons x xs2 =>
      simp at he
      obtain ⟨rfl, h2⟩ := he
      obtain ⟨hxs, hys⟩ := ih xs2 c ys h2 hc
      exact ⟨.one hb hxs, hys⟩
  | two hb1 hb2 hcont hr ih =>
    intro xs c ys he hc
    cases xs with
    | nil =>
      simp at he
      obtain ⟨rfl, _⟩ := he
      omega
    | cons x xs2 =>
      cases xs2 with
      | nil =>
        simp at he
        obtain ⟨rfl, rfl, _⟩ := he
        have := isCont_ge hcont
        omega
      | cons x2 xs3 =>
        simp at he
        obtain ⟨rfl, rfl, h3⟩ := he
        obtain ⟨hxs, hys⟩ := ih xs3 c ys h3 hc
        exact ⟨.two hb1 hb2 hcont hxs, hys⟩
  | three hb1 hb2 hc1 hc2 he0 hed hr ih =>
    intro xs c ys he hc
    cases xs with
    | nil =>
      simp at he
      obtain ⟨rfl, _⟩ := he
      omega
    | cons x xs2 =>
      cases xs2 with
      | nil =>
        simp at he
        obtain ⟨rfl, rfl, _⟩ := he
        have := isCont_ge hc1
        omega
      | cons x2 xs3 =>
        cases xs3 with
        | nil =>
          simp at he
          obtain ⟨rfl, rfl, rfl, _⟩ := he
          have := isCont_ge hc2
          omega
        | cons x3 xs4 =>
          simp at he
          obtain ⟨rfl, rfl, rfl, h4⟩ := he
          obtain ⟨hxs, hys⟩ := ih xs4 c ys h4 hc
          exact ⟨.three hb1 hb2 hc1 hc2 he0 hed hxs, hys⟩
  | four hb1 hb2 hc1 hc2 hc3 hf0 hf4 hr ih =>
    intro xs c ys he hc
    cases xs with
    | nil =>
      simp at he
      obtain ⟨rfl, _⟩ := he
      omega
    | cons x xs2 =>
      cases xs2 with
      | nil =>
        simp at he
        obtain ⟨rfl, rfl, _⟩ := he
        have := isCont_ge hc1
        omega
      | cons x2 xs3 =>
        cases xs3 with
        | nil =>
          simp at he
          obtain ⟨rfl, rfl, rfl, _⟩ := he
          have := isCont_ge hc2
          omega
        | cons x3 xs4 =>
          cases xs4 with
          | nil =>
            simp at he
            obtain ⟨rfl, rfl, rfl, rfl, _⟩ := he
            have := isCont_ge hc3
            omega
          | cons x4 xs5 =>
            simp at he
            obtain ⟨rfl, rfl, rfl, rfl, h5⟩ := he
            obtain ⟨hxs, hys⟩ := ih xs5 c ys h5 hc
            exact ⟨.four hb1 hb2 hc1 hc2 hc3 hf0 hf4 hxs, hys⟩

theorem Utf8V.tail_of_ascii {c : Nat} {ys : Bytes} (h : Utf8V (c :: ys)) (hc : c < 0x80) :
    Utf8V ys := by
  cases h with
  | one _ hr => exact hr
  | two hb1 => omega
  | three hb1 => omega
  | four hb1 => omega

theorem getElem?_split {s : Bytes} {i : Nat} {x : Nat} (h : s[i]? = some x) :
    s = s.take i ++ x :: s.drop (i + 1) := by
  obtain ⟨hlt, hget⟩ := List.getElem?_eq_some.mp h
  conv_lhs => rw [← List.take_append_drop i s]
  rw [List.drop_eq_getElem_cons hlt, hget]

theorem utf8_drop_of_boundary {s : Bytes} {a : Nat} (h : Utf8V s)
    (hb : a = 0 ∨ ∃ x, s[a - 1]? = some x ∧ x < 0x80) : Utf8V (s.drop a) := by
  rcases hb with rfl | ⟨x, hx, hxa⟩
  · simpa using h
  · rcases Nat.eq_zero_or_pos a with rfl | hpos
    · simpa using h
    · obtain ⟨i, rfl⟩ : ∃ i, a = i + 1 := ⟨a - 1, by omega⟩
      simp only [Nat.add_sub_cancel] at hx
      have hsplit := getElem?_split hx
      have := (utf8_split_ascii h (s.take i) x (s.drop (i + 1)) hsplit hxa).2
      exact this.tail_of_ascii hxa

theorem utf8_take_of_boundary {s : Bytes} {b : Nat} (h : Utf8V s)
    (hb : b = s.length ∨ ∃ x, s[b]? = some x ∧ x < 0x80) : Utf8V (s.take b) := by
  rcases hb with rfl | ⟨x, hx, hxa⟩
  · simpa using h
  · have hsplit := getElem?_split hx
    exact (utf8_split_ascii h (s.take b) x (s.drop (b + 1)) hsplit hxa).1

theorem utf8_slice {s : Bytes} {a b : Nat} (h : Utf8V s) (hab : a ≤ b)
    (hl : a = 0 ∨ ∃ x, s[a - 1]? = some x ∧ x < 0x80)
    (hr : b = s.length ∨ ∃ x, s[b]? = some x ∧ x < 0x80) :
    Utf8V (listSlice s a b) := by
  have hdrop : Utf8V (s.drop a) := utf8_drop_of_boundary h hl
  rw [listSlice]
  apply utf8_take_of_boundary hdrop
  rcases hr with rfl | ⟨x, hx, hxa⟩
  · left
    simp
  · right
    refine ⟨x, ?_, hxa⟩
    rw [getElem?_drop_add]
    rwa [show a + (b - a) = b by omega]

theorem ascii_utf8 {l : Bytes} (h : ∀ b ∈ l, b < 0x80) : Utf8V l := by
  induction l with
  | nil => exact .nil
  | cons x xs ih =>
    exact .one (h x (by simp)) (ih fun b hb => h b (by simp [hb]))

theorem ascii_utf8CheckGo {f : Nat} {l : Bytes} (h : ∀ b ∈ l, b < 0x80)
    (hf : l.length ≤ f) : utf8CheckGo f l = true := by
  induction f generalizing l with
  | zero =>
    cases l with
    | nil => rfl
    | cons x xs => simp at hf
  | succ f ih =>
    cases l with
    | nil => rfl
    | cons x xs =>
      rw [utf8CheckGo]
      rw [if_pos (h x (by simp))]
      exact ih (fun b hb => h b (by simp [hb])) (by simpa using Nat.le_of_succ_le_succ hf)

theorem ascii_utf8Check {l : Bytes} (h : ∀ b ∈ l, b < 0x80) : utf8Check l = true :=
  ascii_utf8CheckGo h (Nat.le_refl _)

theorem isNameByte_ascii {b : Nat} (h : isNameByte b = true) : b < 0x80 := by
  simp only [isNameByte, Bool.or_eq_true, Bool.and_eq_true, decide_eq_true_eq, beq_iff_eq] at h
  omega

/-! ### Concrete sources used by the claims -/

/-- The bytes of the source text of the nested-default example
(a dollar, a brace, the name a, a colon, the text cruel, a space, a
dollar, a brace, the name b, a colon, the text world, two braces). -/
def cruelSrc : Bytes :=
  [36, 123, 97, 58, 99, 114, 117, 101, 108, 32,
   36, 123, 98, 58, 119, 111, 114, 108, 100, 125, 125]

/-- The bytes of the text cruel world. -/
def cruelWorld : Bytes := [99, 114, 117, 101, 108, 32, 119, 111, 114, 108, 100]

/-! ### Claim theorems: C1 -/

/-- C1, counterexample: on the code, `substitute` (the `lib.rs` pipeline,
whose `find_non_escaped` scan is not nesting-aware) applied to the
template with a nested braced default and an empty variable map returns
the text cruel world followed by a stray closing brace, not the text
cruel world claimed. -/
theorem subst_c1_counterexample :
    libSubstitute cruelSrc (fun _ => none) = .ok (cruelWorld ++ [0x7D]) ∧
    PRes.ok (cruelWorld ++ [0x7D]) ≠ PRes.ok cruelWorld := by
  exact ⟨rfl, by decide⟩

/-- C1, amended: the nesting-aware scanning holds of the raw template
pipeline (`Template::parse` with `find_closing_brace`, where an inner
opening brace increments the counter and a closing brace decrements it):
for every variable map in which neither the name a nor the name b is
present, parsing and expanding the nested-default template yields the
text cruel world. -/
theorem subst_c1_amended (vars : VarMap) (ha : vars [97] = none) (hb : vars [98] = none) :
    (templateFromSource cruelSrc).bind (fun raw => templateExpand cruelSrc raw vars) =
      .ok cruelWorld := by
  have hv : vars = fun n => if n = [97] then none else if n = [98] then none else vars n := by
    funext n
    by_cases hna : n = [97]
    · rw [if_pos hna, hna, ha]
    · rw [if_neg hna]
      by_cases hnb : n = [98]
      · rw [if_pos hnb, hnb, hb]
      · rw [if_neg hnb]
  rw [hv]
  rfl

/-- C1, witness: the amended theorem at the empty variable map. -/
theorem subst_c1_witness :
    (templateFromSource cruelSrc).bind (fun raw => templateExpand cruelSrc raw (fun _ => none)) =
      .ok cruelWorld :=
  subst_c1_amended (fun _ => none) rfl rfl

/-! ### Claim theorems: C2 -/

/-- C2: the claim matches the intent (and the raw parser), but the `lib.rs`
parser used by `substitute` is off by one: `parse_variable` checks
`finger == source.len()` instead of `source.len() - 1`, so on an input
whose final byte is a bare dollar sign it indexes one past the end and
panics instead of returning MissingVariableName.  The raw
`Variable::parse` (checking `finger + 1 >= source.len()`) returns exactly
the claimed error. -/
theorem subst_c2_code_bug :
    libSubstitute [0x24] (fun _ => none) = .panic ∧
    libSubstitute [97, 0x24] (fun _ => none) = .panic ∧
    rawParse [0x24] 0 = .err (.missingVariableName 0 1) ∧
    rawParse [97, 0x24] 0 = .err (.missingVariableName 1 1) :=
  ⟨rfl, rfl, rfl, rfl⟩

/-! ### Claim theorems: C3 -/

/-- C3, counterexample: the raw parser accepts a dollar sign followed by
an asterisk and stores the asterisk as the variable's (one-byte) name,
although the asterisk is outside the claimed name byte class. -/
theorem subst_c3_counterexample :
    rawParse [0x24, 0x2A] 0 = .ok [RawPart.variable 1 2 none] ∧
    listSlice [0x24, 0x2A] 1 2 = [0x2A] ∧
    isNameByte 0x2A = false :=
  ⟨rfl, rfl, rfl⟩

/-! ### Claim theorems: C6 (counterexample half) -/

/-- C6, counterexample: a successful `parse_template_range` of the
`lib.rs` parser over the source region `4..19` of the nested-default
source returns parts whose sizes cover bytes `4..20` — the final variable
part extends one byte past the end of the scanned region, so the parts do
not stay within (and do not partition) that region. -/
theorem subst_c6_counterexample :
    libParseRange true cruelSrc 4 19 =
      .ok [LibPart.literal [99, 114, 117, 101, 108, 32],
           LibPart.variable 10 20 [98] 12 (some [LibPart.literal [119, 111, 114, 108, 100]])] ∧
    19 < 4 + (List.map LibPart.size
      [LibPart.literal [99, 114, 117, 101, 108, 32],
       LibPart.variable 10 20 [98] 12 (some [LibPart.literal [119, 111, 114, 108, 100]])]).sum := by
  exact ⟨rfl, by decide⟩

/-! ### Claim theorems: C4 -/

/-- C4: when the variable's name is found in the map, expansion appends
exactly the value's bytes; the default template and the recursive
expansion function are never consulted (the result is the same for every
`recurse` and every `default`), and no other entry of the map matters
(only the hypothesis on this one name is used).  Stated for the `lib.rs`
expander (`expand_template_part_variable`) and the raw expander
(`Expand for Variable`; the raw one first slices and UTF-8-converts the
name from the source, hence its two bounds hypotheses and the check
hypothesis). -/
theorem subst_c4 :
    (∀ (recurse : List LibPart → Bytes → PRes Bytes) (silent : Bool) (vars : VarMap)
        (name : Bytes) (nameStart : Nat) (default : Option (List LibPart)) (out value : Bytes),
        vars name = some value →
        libExpandVariableF recurse silent vars name nameStart default out = .ok (out ++ value)) ∧
    (∀ (recurse : List RawPart → Bytes → PRes Bytes) (source : Bytes) (vars : VarMap)
        (nameStart nameStop : Nat) (default : Option (List RawPart)) (out value : Bytes),
        nameStart ≤ nameStop → nameStop ≤ source.length →
        utf8Check (listSlice source nameStart nameStop) = true →
        vars (listSlice source nameStart nameStop) = some value →
        rawExpandVariableF recurse source vars nameStart nameStop default out =
          .ok (out ++ value)) := by
  constructor
  · intro recurse silent vars name nameStart default out value h
    cases default <;> simp [libExpandVariableF, h]
  · intro recurse source vars nameStart nameStop default out value h1 h2 hc hv
    simp [rawExpandVariableF, h1, h2, hc, hv]

/-- C4, witness: both halves at concrete inputs (a map binding the name x
to the value y, a variable part with a default that would fail if it were
consulted). -/
theorem subst_c4_witness :
    libExpandVariableF (fun _ _ => .panic) false
        (fun n => if n = [120] then some [121] else none) [120] 1
        (some [LibPart.literal [122]]) [97] = .ok ([97] ++ [121]) ∧
    rawExpandVariableF (fun _ _ => .panic) [36, 120]
        (fun n => if n = [120] then some [121] else none) 1 2
        (some [RawPart.literal 0 1]) [97] = .ok ([97] ++ [121]) := by
  constructor
  · exact subst_c4.1 _ _ _ _ _ _ _ _ (by decide)
  · have := subst_c4.2 (fun _ _ => .panic) [36, 120]
      (fun n => if n = [120] then some [121] else none) 1 2
      (some [RawPart.literal 0 1]) [97] [121]
      (by decide) (by decide) (by decide) (by decide)
    exact this

/-! ### Claim theorems: C5 -/

/-- C5: a variable whose name is absent from the map and that has no
default fails with exactly NoSuchVariable carrying the literal name bytes
and the byte position of the name's start; substituting empty text
instead happens exactly when the silent-missing-variables option is
enabled, and `TemplateExpander::new` starts with it disabled.  The two
concrete conjuncts show the error through the full pipelines for both the
dollar-name and braced forms (name x at positions 1 and 2). -/
theorem subst_c5 :
    (∀ (recurse : List LibPart → Bytes → PRes Bytes) (vars : VarMap)
        (name : Bytes) (nameStart : Nat) (out : Bytes),
        vars name = none →
        libExpandVariableF recurse false vars name nameStart none out =
          .err (.noSuchVariable nameStart name)) ∧
    (∀ (recurse : List LibPart → Bytes → PRes Bytes) (vars : VarMap)
        (name : Bytes) (nameStart : Nat) (out : Bytes),
        vars name = none →
        libExpandVariableF recurse true vars name nameStart none out = .ok out) ∧
    TemplateExpanderCfg.new.silent_missing_variables = false ∧
    (∀ (recurse : List RawPart → Bytes → PRes Bytes) (source : Bytes) (vars : VarMap)
        (nameStart nameStop : Nat) (out : Bytes),
        nameStart ≤ nameStop → nameStop ≤ source.length →
        utf8Check (listSlice source nameStart nameStop) = true →
        vars (listSlice source nameStart nameStop) = none →
        rawExpandVariableF recurse source vars nameStart nameStop none out =
          .err (.noSuchVariable nameStart (listSlice source nameStart nameStop))) ∧
    libSubstitute [0x24, 0x78] (fun _ => none) = .err (.noSuchVariable 1 [0x78]) ∧
    libSubstitute [0x24, 0x7B, 0x78, 0x7D] (fun _ => none) = .err (.noSuchVariable 2 [0x78]) ∧
    (templateFromSource [0x24, 0x78]).bind
        (fun raw => templateExpand [0x24, 0x78] raw (fun _ => none)) =
      .err (.noSuchVariable 1 [0x78]) ∧
    (templateFromSource [0x24, 0x7B, 0x78, 0x7D]).bind
        (fun raw => templateExpand [0x24, 0x7B, 0x78, 0x7D] raw (fun _ => none)) =
      .err (.noSuchVariable 2 [0x78]) := by
  refine ⟨?_, ?_, rfl, ?_, rfl, rfl, rfl, rfl⟩
  · intro recurse vars name nameStart out h
    simp [libExpandVariableF, h]
  · intro recurse vars name nameStart out h
    simp [libExpandVariableF, h]
  · intro recurse source vars nameStart nameStop out h1 h2 hc hv
    simp [rawExpandVariableF, h1, h2, hc, hv]

/-- C5, witness: the hypothesis-bearing conjuncts at concrete inputs
(empty map, name x). -/
theorem subst_c5_witness :
    libExpandVariableF (fun _ _ => .panic) false (fun _ => none) [120] 1 none [] =
      .err (.noSuchVariable 1 [120]) ∧
    libExpandVariableF (fun _ _ => .panic) true (fun _ => none) [120] 1 none [97] = .ok [97] ∧
    rawExpandVariableF (fun _ _ => .panic) [36, 120] (fun _ => none) 1 2 none [] =
      .err (.noSuchVariable 1 [120]) := by
  refine ⟨subst_c5.1 _ _ _ _ _ rfl, subst_c5.2.1 _ _ _ _ _ rfl, ?_⟩
  have := subst_c5.2.2.2.1 (fun _ _ => .panic) [36, 120] (fun _ => none) 1 2 []
    (by decide) (by decide) (by decide) rfl
  exact this

/-! ### Claim theorems: C7 -/

/-- C7: `Error::source_range` agrees with the diagnostics table of the
specification on every error value. -/
theorem subst_c7 (e : Err) : e.sourceRange = e.sourceRangeSpec := by
  cases e with
  | invalidEscapeSequence p c =>
    cases c <;> simp [Err.sourceRange, Err.sourceRangeSpec, Nat.add_assoc]
  | missingVariableName p l => rfl
  | unexpectedCharacter p c m => rfl
  | missingClosingBrace p => rfl
  | noSuchVariable p n => rfl

/-! ### Claim theorems: C9 -/

/-- C9: cloning an owned template (`TemplateBuf` or `ByteTemplateBuf`)
yields a template whose expansion against any variable map is the same
value (output or error) as the original's, and whose source equals the
original's source. -/
theorem subst_c9 (t : TemplateBuf) (bt : ByteTemplateBuf) (vars : VarMap) :
    t.clone.expand vars = t.expand vars ∧ t.clone.source = t.source ∧
    bt.clone.expand vars = bt.expand vars ∧ bt.clone.source = bt.source :=
  ⟨rfl, rfl, rfl, rfl⟩

/-! ### Invariant predicates for the raw parser -/

/-- A stored variable name is well formed: a non-empty run of name bytes
(ASCII alphanumerics and underscore), or the single wildcard byte `*`. -/
def NameOk (bs : Bytes) : Prop :=
  (bs ≠ [] ∧ ∀ b ∈ bs, isNameByte b = true) ∨ bs = [0x2A]

/-- Well-formedness of a raw part with respect to a source: all stored
ranges lie within the source, the escaped byte is ASCII, every name
satisfies `NameOk`, and defaults are recursively well formed. -/
inductive RawWF : Bytes → RawPart → Prop where
  | literal {src : Bytes} {a b : Nat} : a ≤ b → b ≤ src.length →
      RawWF src (.literal a b)
  | escaped {src : Bytes} {v : Nat} : v < 0x80 → RawWF src (.escapedByte v)
  | varNone {src : Bytes} {ns ne : Nat} : ns ≤ ne → ne ≤ src.length →
      NameOk (listSlice src ns ne) → RawWF src (.variable ns ne none)
  | varSome {src : Bytes} {ns ne : Nat} {d : List RawPart} : ns ≤ ne → ne ≤ src.length →
      NameOk (listSlice src ns ne) → (∀ p ∈ d, RawWF src p) →
      RawWF src (.variable ns ne (some d))

/-- UTF-8 well-formedness of a raw part with respect to a source: every
literal range slices to valid UTF-8, escaped bytes are ASCII, and
defaults are recursively well formed. -/
inductive RawOk : Bytes → RawPart → Prop where
  | literal {src : Bytes} {a b : Nat} : a ≤ b → b ≤ src.length →
      Utf8V (listSlice src a b) → RawOk src (.literal a b)
  | escaped {src : Bytes} {v : Nat} : v < 0x80 → RawOk src (.escapedByte v)
  | varNone {src : Bytes} {ns ne : Nat} : RawOk src (.variable ns ne none)
  | varSome {src : Bytes} {ns ne : Nat} {d : List RawPart} :
      (∀ p ∈ d, RawOk src p) → RawOk src (.variable ns ne (some d))

mutual

/-- The parser's parts partition a region: each part occupies a
consecutive extent, literals are non-empty, a short variable's name runs
from the byte after the dollar sign to the extent's end, a braced
variable's name starts two bytes in and its default (when present) tiles
the region between the colon and the closing brace. -/
inductive TilesP : RawPart → Nat → Nat → Prop where
  | lit {lo hi : Nat} : lo < hi → TilesP (.literal lo hi) lo hi
  | esc {v lo : Nat} : TilesP (.escapedByte v) lo (lo + 2)
  | varShort {lo hi : Nat} : lo + 1 < hi → TilesP (.variable (lo + 1) hi none) lo hi
  | varBraced {lo ne : Nat} : lo + 2 < ne → TilesP (.variable (lo + 2) ne none) lo (ne + 1)
  | varDefault {lo ne e : Nat} {d : List RawPart} : lo + 2 < ne → ne + 1 ≤ e →
      TilesL d (ne + 1) e → TilesP (.variable (lo + 2) ne (some d)) lo (e + 1)

/-- A list of parts tiles the half-open region `lo..hi`: the extents are
consecutive, non-overlapping and exhaustive. -/
inductive TilesL : List RawPart → Nat → Nat → Prop where
  | nil {hi : Nat} : TilesL [] hi hi
  | cons {p : RawPart} {ps : List RawPart} {lo mid hi : Nat} :
      TilesP p lo mid → TilesL ps mid hi → TilesL (p :: ps) lo hi

end

/-- Left boundary condition for a scan position: at the start of the
source, or immediately preceded by an ASCII byte. -/
def BoundL (src : Bytes) (a : Nat) : Prop :=
  a = 0 ∨ ∃ x, src[a - 1]? = some x ∧ x < 0x80

/-! ### Small slice helpers -/

theorem listSlice_singleton {s : Bytes} {i x : Nat} (h : s[i]? = some x) :
    listSlice s i (i + 1) = [x] := by
  have hsplit := getElem?_split h
  rw [listSlice, Nat.add_sub_cancel_left]
  conv_lhs => rw [hsplit]
  have hlen : (s.take i).length = i := by
    have := (List.getElem?_eq_some.mp h).1
    simp
    omega
  rw [List.drop_append_of_le_length (by omega), List.drop_eq_nil_of_le (by omega)]
  simp

theorem mem_listSlice {s : Bytes} {a c b : Nat} (hm : b ∈ listSlice s a c) :
    ∃ j, a + j < c ∧ s[a + j]? = some b := by
  obtain ⟨i, hi⟩ := List.mem_iff_getElem?.mp hm
  have hlt : i < (listSlice s a c).length := (List.getElem?_eq_some.mp hi).1
  have hlen : (listSlice s a c).length ≤ c - a := by
    rw [listSlice]
    exact le_trans (List.length_take_le _ _) (le_refl _)
  have hac : a + i < c := by omega
  exact ⟨i, hac, by rw [← listSlice_get? hac]; exact hi⟩

theorem listSlice_to_length {s : Bytes} {a : Nat} :
    listSlice s a s.length = s.drop a := by
  rw [listSlice]
  exact List.take_of_length_le (by simp)

theorem nameOk_of_scan {s : Bytes} {a c : Nat} (hl : a < c) (hc : c ≤ s.length)
    (hmem : ∀ b ∈ listSlice s a c, isNameByte b = true ∨ b = 0x2A)
    (hstar : ¬(c - a > 1 ∧ (listSlice s a c).contains 0x2A = true)) :
    NameOk (listSlice s a c) := by
  have hlen : (listSlice s a c).length = c - a := listSlice_length hc (by omega)
  by_cases hone : c - a = 1
  · rw [hone] at hlen
    obtain ⟨x, hx⟩ := List.length_eq_one.mp hlen
    rcases hmem x (by simp [hx]) with hn | hs
    · exact Or.inl ⟨by simp [hx], fun b hb => by
        rw [hx] at hb
        simp at hb
        rwa [hb]⟩
    · exact Or.inr (by rw [hx, hs])
  · have hgt : c - a > 1 := by omega
    have hnc : ¬((listSlice s a c).contains 0x2A = true) := fun hcon => hstar ⟨hgt, hcon⟩
    refine Or.inl ⟨?_, fun b hb => ?_⟩
    · intro hnil
      rw [hnil] at hlen
      simp at hlen
      omega
    · rcases hmem b hb with hn | rfl
      · exact hn
      · exact absurd (List.elem_eq_true_of_mem hb) hnc

theorem listSlice_append_left {src0 t : Bytes} {ns ne : Nat} (h : ne ≤ src0.length) :
    listSlice (src0 ++ t) ns ne = listSlice src0 ns ne := by
  by_cases hns : ns ≤ src0.length
  · rw [listSlice, listSlice, List.drop_append_of_le_length hns,
      List.take_append_of_le_length (by simp; omega)]
  · rw [listSlice, listSlice]
    have h0 : ne - ns = 0 := by omega
    rw [h0]
    simp

theorem rawWF_prefix : ∀ {src0 : Bytes} {p : RawPart}, RawWF src0 p →
    ∀ {src : Bytes}, src0 <+: src → RawWF src p := by
  intro src0 p h
  induction h with
  | literal ha hb =>
    intro src hpre
    exact .literal ha (le_trans hb hpre.length_le)
  | escaped hv =>
    intro src hpre
    exact .escaped hv
  | varNone h1 h2 h3 =>
    intro src hpre
    obtain ⟨t, rfl⟩ := hpre
    exact .varNone h1 (le_trans h2 (by simp)) (by rwa [listSlice_append_left h2])
  | varSome h1 h2 h3 _ ih =>
    intro src hpre
    obtain ⟨t, rfl⟩ := hpre
    refine .varSome h1 (le_trans h2 (by simp)) (by rwa [listSlice_append_left h2]) ?_
    exact fun p hp => ih p hp ⟨t, rfl⟩

theorem rawOk_prefix : ∀ {src0 : Bytes} {p : RawPart}, RawOk src0 p →
    ∀ {src : Bytes}, src0 <+: src → RawOk src p := by
  intro src0 p h
  induction h with
  | literal ha hb hu =>
    intro src hpre
    obtain ⟨t, rfl⟩ := hpre
    exact .literal ha (le_trans hb (by simp)) (by rwa [listSlice_append_left hb])
  | escaped hv =>
    intro src hpre
    exact .escaped hv
  | varNone =>
    intro src hpre
    exact .varNone
  | varSome _ ih =>
    intro src hpre
    exact .varSome fun p hp => ih p hp hpre

/-- Specification assumed of the recursive parse callback inside
`Variable::parse_braced`: an `ok` result is well formed, UTF-8-sound
under the boundary conditions, and tiles the scanned region. -/
def ParseCbSpec (parse : Bytes → Nat → PRes (List RawPart)) : Prop :=
  ∀ src st parts, parse src st = .ok parts →
    (∀ p ∈ parts, RawWF src p) ∧
    (Utf8V src → BoundL src st → ∀ p ∈ parts, RawOk src p) ∧
    (st ≤ src.length → TilesL parts st src.length)

theorem pred2_false_iff {b : Nat} :
    ((!(isNameByte b) && !(b == 0x2A)) = false) ↔ (isNameByte b = true ∨ b = 0x2A) := by
  cases hn : isNameByte b <;> by_cases hs : b = 0x2A <;> simp [hn, hs]

theorem rawParseBracedF_spec {parse : Bytes → Nat → PRes (List RawPart)}
    (hcb : ParseCbSpec parse) {source : Bytes} {finger : Nat}
    (hdlr : source[finger]? = some 0x24) (hbrc : source[finger + 1]? = some 0x7B)
    {v : RawPart} {stop : Nat}
    (h : rawParseBracedF parse source finger = .ok (v, stop)) :
    RawWF source v ∧ (Utf8V source → RawOk source v) ∧
    finger < stop ∧ stop ≤ source.length ∧
    (∃ y, source[stop - 1]? = some y ∧ y < 0x80) ∧
    TilesP v finger stop := by
  rw [rawParseBracedF] at h
  split at h
  · simp at h
  · rename_i hns
    have hnslt : finger + 2 < source.length := by omega
    cases hpos : bytePos (fun c => !(isNameByte c) && !(c == 0x2A)) (source.drop (finger + 2)) with
    | none =>
      simp only [hpos] at h
      simp at h
    | some x =>
      cases x with
      | zero => simp [hpos] at h
      | succ x1 =>
        simp only [hpos] at h
        have hxlt := bytePos_some_lt hpos
        rw [List.length_drop] at hxlt
        have hprior := bytePos_prior hpos
        have hnelt : finger + 2 + (x1 + 1) < source.length := by omega
        have hmemname : ∀ b ∈ listSlice source (finger + 2) (finger + 2 + (x1 + 1)),
            isNameByte b = true ∨ b = 0x2A := by
          intro b hbmem
          obtain ⟨j, hj, hjb⟩ := mem_listSlice hbmem
          have hjx : j < x1 + 1 := by omega
          have := hprior j hjx b (by rw [getElem?_drop_add]; exact hjb)
          exact pred2_false_iff.mp this
        split at h
        · simp at h
        · split at h
          · simp at h
          · rename_i hneq hstar
            have hnostar : ¬(finger + 2 + (x1 + 1) - (finger + 2) > 1 ∧
                (listSlice source (finger + 2) (finger + 2 + (x1 + 1))).contains 0x2A = true) := by
              intro hcon
              apply hstar
              simp only [Bool.and_eq_true, decide_eq_true_eq]
              exact ⟨hcon.1, hcon.2⟩
            have hnameok : NameOk (listSlice source (finger + 2) (finger + 2 + (x1 + 1))) :=
              nameOk_of_scan (by omega) (by omega) hmemname hnostar
            cases hget : source[finger + 2 + (x1 + 1)]? with
            | none => simp [hget] at h
            | some cAfter =>
              simp only [hget] at h
              split at h
              · rename_i h7D
                simp only [beq_iff_eq] at h7D
                subst h7D
                simp only [PRes.ok.injEq, Prod.mk.injEq] at h
                obtain ⟨rfl, rfl⟩ := h
                refine ⟨.varNone (by omega) (by omega) hnameok,
                  fun _ => .varNone, by omega, by omega, ?_, ?_⟩
                · exact ⟨0x7D, by simpa using hget, by omega⟩
                · exact .varBraced (by omega)
              · split at h
                · cases hch : getMaybeCharAt source (finger + 2 + (x1 + 1)) <;>
                    simp [hch, PRes.bind] at h
                · rename_i hn7D hcolon
                  simp at hcolon
                  subst hcolon
                  cases hfc : findClosingBrace (source.drop finger) with
                  | none => simp [hfc] at h
                  | some rel =>
                    simp only [hfc] at h
                    have hfcb : source[finger + rel]? = some 0x7D := by
                      have := findClosingBraceGo_get hfc
                      rwa [getElem?_drop_add] at this
                    have hrellt : finger + rel < source.length :=
                      (List.getElem?_eq_some.mp hfcb).1
                    have hrelge : finger + 2 + (x1 + 1) + 1 ≤ finger + rel := by
                      by_contra hcon
                      push_neg at hcon
                      rcases Nat.lt_or_ge (finger + rel) (finger + 2) with h1 | h1
                      · rcases (by omega : finger + rel = finger ∨ finger + rel = finger + 1)
                          with he | he
                        · rw [he, hdlr] at hfcb
                          simp at hfcb
                        · rw [he, hbrc] at hfcb
                          simp at hfcb
                      · rcases Nat.lt_or_ge (finger + rel) (finger + 2 + (x1 + 1)) with h2 | h2
                        · have hj : finger + rel - (finger + 2) < x1 + 1 := by omega
                          have := hprior (finger + rel - (finger + 2)) hj 0x7D
                            (by rw [getElem?_drop_add,
                              show finger + 2 + (finger + rel - (finger + 2)) = finger + rel
                                from by omega]; exact hfcb)
                          rw [pred2_false_iff] at this
                          rcases this with hn | hs
                          · exact absurd hn (by decide)
                          · exact absurd hs (by decide)
                        · have he : finger + rel = finger + 2 + (x1 + 1) := by omega
                          rw [he, hget] at hfcb
                          simp at hfcb
                    cases hp : parse (source.take (finger + rel)) (finger + 2 + (x1 + 1) + 1) with
                    | ok dparts =>
                      simp only [hp, PRes.map, PRes.ok.injEq, Prod.mk.injEq] at h
                      obtain ⟨rfl, rfl⟩ := h
                      have htklen : (source.take (finger + rel)).length = finger + rel := by
                        simp
                        omega
                      obtain ⟨hwf, hok, htiles⟩ := hcb _ _ _ hp
                      have hwf2 : ∀ p ∈ dparts, RawWF source p :=
                        fun p hp2 => rawWF_prefix (hwf p hp2) (List.take_prefix _ _)
                      refine ⟨.varSome (by omega) (by omega) hnameok hwf2, ?_, by omega,
                        by omega, ?_, ?_⟩
                      · intro hu
                        have hutake : Utf8V (source.take (finger + rel)) :=
                          utf8_take_of_boundary hu (Or.inr ⟨0x7D, hfcb, by omega⟩)
                        have hbl : BoundL (source.take (finger + rel)) (finger + 2 + (x1 + 1) + 1) := by
                          refine Or.inr ⟨0x3A, ?_, by omega⟩
                          rw [Nat.add_sub_cancel]
                          rw [List.getElem?_take_of_lt (by omega)]
                          exact hget
                        have hok2 := hok hutake hbl
                        exact .varSome fun p hp2 =>
                          rawOk_prefix (hok2 p hp2) (List.take_prefix _ _)
                      · exact ⟨0x7D, by simpa using hfcb, by omega⟩
                      · have := htiles (by omega)
                        rw [htklen] at this
                        exact .varDefault (by omega) (by omega) this
                    | err e => simp [hp, PRes.map] at h
                    | panic => simp [hp, PRes.map] at h
                    | more => simp [hp, PRes.map] at h

theorem getElem?_exists {l : Bytes} {i : Nat} (h : i < l.length) : ∃ b, l[i]? = some b :=
  ⟨l[i], List.getElem?_eq_getElem h⟩

theorem mem_of_getElem?_drop {l : Bytes} {k i : Nat} {b : Nat}
    (h : (l.drop k)[i]? = some b) : b ∈ l.drop k := by
  obtain ⟨hlt, hget⟩ := List.getElem?_eq_some.mp h
  exact hget ▸ List.getElem_mem hlt

theorem rawParseVariableF_spec {parse : Bytes → Nat → PRes (List RawPart)}
    (hcb : ParseCbSpec parse) {source : Bytes} {finger : Nat}
    (hdlr : source[finger]? = some 0x24)
    {v : RawPart} {stop : Nat}
    (h : rawParseVariableF parse source finger = .ok (v, stop)) :
    RawWF source v ∧ (Utf8V source → RawOk source v) ∧
    finger < stop ∧ stop ≤ source.length ∧
    (∃ y, source[stop - 1]? = some y ∧ y < 0x80) ∧
    TilesP v finger stop := by
  rw [rawParseVariableF] at h
  split at h
  · simp at h
  · rename_i hlen
    have hlen2 : finger + 1 < source.length := by omega
    cases hg : source[finger + 1]? with
    | none => simp [hg] at h
    | some c1 =>
      simp only [hg] at h
      split at h
      · rename_i h7B
        simp only [beq_iff_eq] at h7B
        subst h7B
        exact rawParseBracedF_spec hcb hdlr hg h
      · split at h
        · rename_i hn7B hstar
          simp only [beq_iff_eq] at hstar
          subst hstar
          simp only [PRes.ok.injEq, Prod.mk.injEq] at h
          obtain ⟨rfl, rfl⟩ := h
          refine ⟨.varNone (by omega) (by omega) (Or.inr (listSlice_singleton hg)),
            fun _ => .varNone, by omega, by omega, ?_, .varShort (by omega)⟩
          exact ⟨0x2A, by simpa using hg, by omega⟩
        · cases hpos : bytePos (fun c => !(isNameByte c)) (source.drop (finger + 1)) with
          | some x =>
            cases x with
            | zero => simp [hpos] at h
            | succ x1 =>
              simp only [hpos] at h
              simp only [PRes.ok.injEq, Prod.mk.injEq] at h
              obtain ⟨rfl, rfl⟩ := h
              have hxlt := bytePos_some_lt hpos
              rw [List.length_drop] at hxlt
              have hprior := bytePos_prior hpos
              have hnames : ∀ b ∈ listSlice source (finger + 1) (finger + 1 + (x1 + 1)),
                  isNameByte b = true := by
                intro b hbmem
                obtain ⟨j, hj, hjb⟩ := mem_listSlice hbmem
                have := hprior j (by omega) b (by rw [getElem?_drop_add]; exact hjb)
                simpa using this
              obtain ⟨bb, hbb⟩ := getElem?_exists
                (l := source) (i := finger + 1 + x1) (by omega)
              have hbbname : isNameByte bb = true := by
                have := hprior x1 (by omega) bb
                  (by rw [getElem?_drop_add]; exact hbb)
                simpa using this
              refine ⟨.varNone (by omega) (by omega) ?_, fun _ => .varNone, by omega,
                by omega, ?_, .varShort (by omega)⟩
              · refine Or.inl ⟨?_, hnames⟩
                intro hnil
                have := listSlice_length (s := source) (a := finger + 1)
                  (b := finger + 1 + (x1 + 1)) (by omega) (by omega)
                rw [hnil] at this
                simp at this
              · refine ⟨bb, ?_, isNameByte_ascii hbbname⟩
                rw [show finger + 1 + (x1 + 1) - 1 = finger + 1 + x1 from by omega]
                exact hbb
          | none =>
            simp only [hpos] at h
            simp only [PRes.ok.injEq, Prod.mk.injEq] at h
            obtain ⟨rfl, rfl⟩ := h
            have hall := bytePos_none hpos
            obtain ⟨bb, hbb⟩ := getElem?_exists
              (l := source) (i := source.length - 1) (by omega)
            have hbbmem : bb ∈ source.drop (finger + 1) := by
              apply mem_of_getElem?_drop (i := source.length - 1 - (finger + 1))
              rw [getElem?_drop_add,
                show finger + 1 + (source.length - 1 - (finger + 1)) = source.length - 1
                  from by omega]
              exact hbb
            have hbbname : isNameByte bb = true := by simpa using hall bb hbbmem
            refine ⟨.varNone (by omega) (by omega) ?_, fun _ => .varNone, by omega,
              by omega, ?_, .varShort (by omega)⟩
            · rw [listSlice_to_length]
              refine Or.inl ⟨?_, fun b hb => by simpa using hall b hb⟩
              intro hnil
              have : (source.drop (finger + 1)).length = 0 := by rw [hnil]; rfl
              rw [List.length_drop] at this
              omega
            · exact ⟨bb, hbb, isNameByte_ascii hbbname⟩

theorem tilesL_front {finger next mid hi : Nat} {p : RawPart} {rest : List RawPart}
    (hfn : finger ≤ next) (hp : TilesP p next mid) (hr : TilesL rest mid hi) :
    TilesL ((if !(next == finger) then [RawPart.literal finger next] else []) ++ p :: rest)
      finger hi := by
  by_cases h : next = finger
  · subst h
    rw [if_neg (by simp)]
    exact .cons hp hr
  · have hlt : finger < next := lt_of_le_of_ne hfn (Ne.symm h)
    rw [if_pos (by simp [h])]
    exact .cons (.lit hlt) (.cons hp hr)

theorem forall_mem_front {P : RawPart → Prop} {finger next : Nat} {p : RawPart}
    {rest : List RawPart} (hlit : P (.literal finger next)) (hp : P p)
    (hr : ∀ q ∈ rest, P q) :
    ∀ q ∈ (if !(next == finger) then [RawPart.literal finger next] else []) ++ p :: rest,
      P q := by
  intro q hq
  by_cases h : next = finger
  · rw [if_neg (by simp [h])] at hq
    simp only [List.nil_append, List.mem_cons] at hq
    rcases hq with rfl | hq
    · exact hp
    · exact hr q hq
  · rw [if_pos (by simp [h])] at hq
    simp only [List.cons_append, List.nil_append, List.mem_cons] at hq
    rcases hq with rfl | rfl | hq
    · exact hlit
    · exact hp
    · exact hr q hq

theorem rawParseGo_spec : ∀ (f : Nat) (src : Bytes) (finger : Nat) (parts : List RawPart),
    rawParseGo f src finger = .ok parts →
    (∀ p ∈ parts, RawWF src p) ∧
    (Utf8V src → BoundL src finger → ∀ p ∈ parts, RawOk src p) ∧
    (finger ≤ src.length → TilesL parts finger src.length) := by
  intro f
  induction f with
  | zero =>
    intro src finger parts h
    simp [rawParseGo] at h
  | succ f ih =>
    intro src finger parts h
    rw [rawParseGo] at h
    split at h
    case isFalse hflt =>
      simp only [PRes.ok.injEq] at h
      subst h
      refine ⟨by simp, fun _ _ => by simp, fun hle => ?_⟩
      have : finger = src.length := by omega
      subst this
      exact .nil
    case isTrue hflt =>
      cases hm : memchr2 0x24 0x5C (src.drop finger) with
      | none =>
        have hne : (src.length == finger) = false := beq_eq_false_iff_ne.mpr (by omega)
        simp only [hm, hne, Bool.not_false, if_true, beq_self_eq_true, PRes.ok.injEq] at h
        subst h
        have hall := bytePos_none hm
        refine ⟨?_, ?_, fun _ => ?_⟩
        · intro p hp
          simp at hp
          subst hp
          exact .literal (by omega) (le_refl _)
        · intro hu hbl p hp
          simp at hp
          subst hp
          exact .literal (by omega) (le_refl _) (utf8_slice hu (by omega) hbl (Or.inl rfl))
        · exact .cons (.lit hflt) .nil
      | some x =>
        obtain ⟨cb, hcb2, hcbor⟩ := memchr2_some_get hm
        rw [getElem?_drop_add] at hcb2
        have hnextlt : finger + x < src.length := (List.getElem?_eq_some.mp hcb2).1
        have hnexne : (finger + x == src.length) = false := beq_eq_false_iff_ne.mpr (by omega)
        simp only [hm, hnexne, Bool.false_eq_true, if_false, hcb2, Option.getD_some] at h
        split at h
        case isTrue hbs =>
          have hcbbs : cb = 0x5C := by simpa using hbs
          cases hu : unescapeOne src (finger + x) with
          | ok value =>
            simp only [hu] at h
            cases hrest : rawParseGo f src (finger + x + 2) with
            | ok rest =>
              simp only [hrest, PRes.map, PRes.ok.injEq] at h
              subst h
              obtain ⟨huval, hvasc⟩ := unescapeOne_ok hu
              have hval_lt : finger + x + 1 < src.length := (List.getElem?_eq_some.mp huval).1
              obtain ⟨wfr, okr, tilesr⟩ := ih src (finger + x + 2) rest hrest
              have hbl2 : BoundL src (finger + x + 2) := by
                refine Or.inr ⟨value, ?_, hvasc⟩
                rw [show finger + x + 2 - 1 = finger + x + 1 from by omega]
                exact huval
              refine ⟨?_, ?_, fun _ => ?_⟩
              · refine forall_mem_front ?_ (.escaped hvasc) wfr
                exact .literal (Nat.le_add_right _ _) (le_of_lt hnextlt)
              · intro hu2 hbl
                refine forall_mem_front ?_ (.escaped hvasc) (okr hu2 hbl2)
                exact .literal (Nat.le_add_right _ _) (le_of_lt hnextlt)
                  (utf8_slice hu2 (Nat.le_add_right _ _) hbl (Or.inr ⟨cb, hcb2, by omega⟩))
              · exact tilesL_front (Nat.le_add_right _ _) .esc (tilesr (by omega))
            | err e => simp [hrest, PRes.map] at h
            | panic => simp [hrest, PRes.map] at h
            | more => simp [hrest, PRes.map] at h
          | err e => simp [hu] at h
          | panic => simp [hu] at h
          | more => simp [hu] at h
        case isFalse hbs =>
          have hcbds : cb = 0x24 := by
            rcases hcbor with rfl | rfl
            · rfl
            · exact absurd (by simp) hbs
          subst hcbds
          cases hv : rawParseVariableF (fun src2 st => rawParseGo f src2 st) src (finger + x) with
          | ok vstop =>
            obtain ⟨v, stop⟩ := vstop
            simp only [hv] at h
            cases hrest : rawParseGo f src stop with
            | ok rest =>
              simp only [hrest, PRes.map, PRes.ok.injEq] at h
              subst h
              have hcbspec : ParseCbSpec (fun src2 st => rawParseGo f src2 st) :=
                fun src2 st parts2 hp2 => ih src2 st parts2 hp2
              obtain ⟨vwf, vok, hvlt, hvle, hvb, vtiles⟩ :=
                rawParseVariableF_spec hcbspec hcb2 hv
              obtain ⟨wfr, okr, tilesr⟩ := ih src stop rest hrest
              refine ⟨?_, ?_, fun _ => ?_⟩
              · refine forall_mem_front ?_ vwf wfr
                exact .literal (Nat.le_add_right _ _) (le_of_lt hnextlt)
              · intro hu2 hbl
                refine forall_mem_front ?_ (vok hu2) (okr hu2 (Or.inr hvb))
                exact .literal (Nat.le_add_right _ _) (le_of_lt hnextlt)
                  (utf8_slice hu2 (Nat.le_add_right _ _) hbl (Or.inr ⟨0x24, hcb2, by omega⟩))
              · exact tilesL_front (Nat.le_add_right _ _) vtiles (tilesr hvle)
            | err e => simp [hrest, PRes.map] at h
            | panic => simp [hrest, PRes.map] at h
            | more => simp [hrest, PRes.map] at h
          | err e => simp [hv] at h
          | panic => simp [hv] at h
          | more => simp [hv] at h

theorem nameOk_ascii {bs : Bytes} (h : NameOk bs) : ∀ b ∈ bs, b < 0x80 := by
  rcases h with ⟨_, hall⟩ | rfl
  · exact fun b hb => isNameByte_ascii (hall b hb)
  · intro b hb
    simp at hb
    omega

theorem rawExpandGo_no_panic : ∀ (f : Nat) (src : Bytes) (vars : VarMap)
    (parts : List RawPart) (out : Bytes),
    (∀ p ∈ parts, RawWF src p) →
    rawExpandGo f src vars parts out ≠ .panic := by
  intro f
  induction f with
  | zero =>
    intro src vars parts out _
    simp [rawExpandGo]
  | succ f ih =>
    intro src vars parts out hwf
    cases parts with
    | nil => simp [rawExpandGo]
    | cons p rest =>
      have hwfp := hwf p (by simp)
      have hwfr : ∀ q ∈ rest, RawWF src q := fun q hq => hwf q (by simp [hq])
      cases p with
      | literal a b =>
        rw [rawExpandGo]
        cases hwfp with
        | literal ha hb =>
          rw [if_pos (by simp [ha, hb])]
          exact ih src vars rest _ hwfr
      | escapedByte v =>
        rw [rawExpandGo]
        exact ih src vars rest _ hwfr
      | «variable» ns ne df =>
        have hnp : rawExpandVariableF (fun d o => rawExpandGo f src vars d o)
            src vars ns ne df out ≠ .panic := by
          cases hwfp with
          | varNone h1 h2 h3 =>
            rw [rawExpandVariableF, if_pos (by simp [h1, h2]),
              if_pos (ascii_utf8Check (nameOk_ascii h3))]
            cases vars (listSlice src ns ne) <;> simp
          | varSome h1 h2 h3 h4 =>
            rw [rawExpandVariableF, if_pos (by simp [h1, h2]),
              if_pos (ascii_utf8Check (nameOk_ascii h3))]
            cases vars (listSlice src ns ne) with
            | none => exact ih src vars _ out h4
            | some value => simp
        rw [rawExpandGo]
        cases hres : rawExpandVariableF (fun d o => rawExpandGo f src vars d o)
            src vars ns ne df out with
        | ok out2 => exact ih src vars rest out2 hwfr
        | err e => simp
        | panic => exact absurd hres hnp
        | more => simp

/-! ### Claim theorems: C3 (amended half) -/

/-- C3, amended: every variable parsed by the raw parser (including inside
default values) is well formed: its stored name range lies in the source
and slices to either a non-empty run of ASCII alphanumerics and
underscores or the single wildcard byte `*` (the `NameOk` component of
`RawWF`). -/
theorem subst_c3_amended (f : Nat) (source : Bytes) (start : Nat) (parts : List RawPart)
    (h : rawParseGo f source start = .ok parts) : ∀ p ∈ parts, RawWF source p :=
  (rawParseGo_spec f source start parts h).1

/-- C3, witness: the amended theorem on the parse of a dollar and the
name a, at the single parsed part. -/
theorem subst_c3_witness : RawWF [36, 97] (RawPart.variable 1 2 none) :=
  subst_c3_amended 10 [36, 97] 0 [RawPart.variable 1 2 none] rfl
    (RawPart.variable 1 2 none) (by simp)

/-! ### Claim theorems: C6 (theorem half) -/

/-- C6, amended: for the raw parser (`Template::parse`), the parts of a
successful parse tile the scanned region exactly: consecutive,
non-overlapping extents that exhaust `start .. source.len()`, with
literal ranges and name ranges inside their extents and defaults tiling
their inner regions (the `lib.rs` `parse_template_range` violates this
on nested default regions, see the counterexample). -/
theorem subst_c6_raw (f : Nat) (source : Bytes) (start : Nat) (parts : List RawPart)
    (h : rawParseGo f source start = .ok parts) (hs : start ≤ source.length) :
    TilesL parts start source.length :=
  (rawParseGo_spec f source start parts h).2.2 hs

/-- C6, witness: tiling for the raw parse of the nested-default source. -/
theorem subst_c6_witness :
    TilesL [RawPart.variable 2 3 (some [RawPart.literal 4 10,
      RawPart.variable 12 13 (some [RawPart.literal 14 19])])] 0 21 := by
  have h := subst_c6_raw (bigFuel cruelSrc) cruelSrc 0
    [RawPart.variable 2 3 (some [RawPart.literal 4 10,
      RawPart.variable 12 13 (some [RawPart.literal 14 19])])] rfl (by decide)
  simpa using h

/-! ### Claim theorems: C10 -/

/-- C10: expanding a successfully parsed raw template against the same
source never panics: the parser only stores in-bounds ranges and
ASCII-only names, so the literal slicing and the UTF-8 conversion of the
name in `Expand for Template`/`Expand for Variable` always succeed, for
every variable map and fuel. -/
theorem subst_c10 (source : Bytes) (parts : List RawPart)
    (h : templateFromSource source = .ok parts) :
    ∀ (f : Nat) (vars : VarMap) (out : Bytes),
      rawExpandGo f source vars parts out ≠ .panic :=
  fun f vars out => rawExpandGo_no_panic f source vars parts out
    (rawParseGo_spec (bigFuel source) source 0 parts h).1

/-- C10, witness: no panic on the parse of a dollar and the name a,
expanded against an empty map. -/
theorem subst_c10_witness :
    rawExpandGo 5 [36, 97] (fun _ => none) [RawPart.variable 1 2 none] [] ≠ .panic :=
  subst_c10 [36, 97] [RawPart.variable 1 2 none] rfl 5 (fun _ => none) []

/-! ### Invariants for the `lib.rs` parser (UTF-8 soundness) -/

/-- UTF-8 well-formedness of a `lib.rs` template part: literal texts are
valid UTF-8, escaped characters are ASCII, defaults recursively well
formed. -/
inductive LibPartOk : LibPart → Prop where
  | literal {t : Bytes} : Utf8V t → LibPartOk (.literal t)
  | escaped {c : Nat} : c < 0x80 → LibPartOk (.escapedChar c)
  | varNone {ps pe ns : Nat} {nm : Bytes} : LibPartOk (.variable ps pe nm ns none)
  | varSome {ps pe ns : Nat} {nm : Bytes} {d : List LibPart} :
      (∀ p ∈ d, LibPartOk p) → LibPartOk (.variable ps pe nm ns (some d))

/-- Right boundary condition for a scanned region's end: the end of the
source, or a position holding an ASCII byte. -/
def BoundR (src : Bytes) (b : Nat) : Prop :=
  b = src.length ∨ ∃ x, src[b]? = some x ∧ x < 0x80

/-- Scan-position invariant of the `lib.rs` parse loop: the position is a
left boundary, or it holds the dollar sign or backslash that starts the
next non-literal part. -/
def BoundLS (src : Bytes) (a : Nat) : Prop :=
  BoundL src a ∨ src[a]? = some 0x24 ∨ src[a]? = some 0x5C

/-- Specification assumed of the recursive range-parse callback inside
`parse_braced_variable` (for UTF-8 soundness of default values). -/
def LibCbSpec (parseRange : Nat → Nat → PRes (List LibPart)) (source : Bytes) : Prop :=
  ∀ rstart rstop parts, parseRange rstart rstop = .ok parts →
    BoundL source rstart → BoundR source rstop → ∀ p ∈ parts, LibPartOk p

theorem libParseBracedVariableF_spec {parseRange : Nat → Nat → PRes (List LibPart)}
    {allow : Bool} {source : Bytes} {finger : Nat}
    (hcb : LibCbSpec parseRange source)
    {part : LibPart}
    (h : libParseBracedVariableF parseRange allow source finger = .ok part) :
    LibPartOk part ∧ BoundL source (finger + part.size) := by
  rw [libParseBracedVariableF] at h
  split at h
  · simp at h
  · rename_i hns
    cases hpos : bytePos (fun c => !(isNameByte c)) (source.drop (finger + 2)) with
    | none =>
      simp only [hpos] at h
      simp at h
    | some x =>
      cases x with
      | zero => simp [hpos] at h
      | succ x1 =>
        simp only [hpos] at h
        have hxlt := bytePos_some_lt hpos
        rw [List.length_drop] at hxlt
        split at h
        · simp at h
        · cases hget : source[finger + 2 + (x1 + 1)]? with
          | none => simp [hget] at h
          | some cAfter =>
            simp only [hget] at h
            split at h
            · rename_i h7D
              simp only [beq_iff_eq] at h7D
              subst h7D
              split at h
              · cases hchk : checkVariableNameForValidity allow finger
                    (listSlice source (finger + 2) (finger + 2 + (x1 + 1))) with
                | ok u =>
                  simp only [hchk, PRes.bind, PRes.ok.injEq] at h
                  subst h
                  refine ⟨.varNone, Or.inr ⟨0x7D, ?_, by omega⟩⟩
                  rw [LibPart.size]
                  rw [show finger + (finger + 2 + (x1 + 1) + 1 - finger) - 1 =
                    finger + 2 + (x1 + 1) from by omega]
                  exact hget
                | err e => simp [hchk, PRes.bind] at h
                | panic => simp [hchk, PRes.bind] at h
                | more => simp [hchk, PRes.bind] at h
              · simp at h
            · split at h
              · cases hch : getMaybeCharAt source (finger + 2 + (x1 + 1)) <;>
                  simp [hch, PRes.bind] at h
              · rename_i hn7D hcolon
                simp at hcolon
                subst hcolon
                cases hfc : findNonEscaped 0x7D (source.drop finger) with
                | none => simp [hfc] at h
                | some rel =>
                  simp only [hfc] at h
                  have hfcb : source[finger + rel]? = some 0x7D := by
                    have := findNonEscapedGo_get hfc
                    rwa [getElem?_drop_add] at this
                  cases hp : parseRange (finger + 2 + (x1 + 1) + 1) (finger + rel) with
                  | ok dparts =>
                    simp only [hp, PRes.bind] at h
                    split at h
                    · cases hchk : checkVariableNameForValidity allow finger
                          (listSlice source (finger + 2) (finger + 2 + (x1 + 1))) with
                      | ok u =>
                        simp only [hchk, PRes.bind, PRes.ok.injEq] at h
                        subst h
                        have hdok : ∀ p ∈ dparts, LibPartOk p := by
                          refine hcb _ _ _ hp (Or.inr ⟨0x3A, ?_, by omega⟩)
                            (Or.inr ⟨0x7D, hfcb, by omega⟩)
                          rw [Nat.add_sub_cancel]
                          exact hget
                        refine ⟨.varSome hdok, Or.inr ⟨0x7D, ?_, by omega⟩⟩
                        rw [LibPart.size]
                        rw [show finger + (finger + rel + 1 - finger) - 1 = finger + rel
                          from by omega]
                        exact hfcb
                      | err e => simp [hchk, PRes.bind] at h
                      | panic => simp [hchk, PRes.bind] at h
                      | more => simp [hchk, PRes.bind] at h
                    · simp at h
                  | err e => simp [hp, PRes.bind] at h
                  | panic => simp [hp, PRes.bind] at h
                  | more => simp [hp, PRes.bind] at h

theorem libParseVariableF_spec {parseRange : Nat → Nat → PRes (List LibPart)}
    {allow : Bool} {source : Bytes} {finger : Nat}
    (hcb : LibCbSpec parseRange source)
    {part : LibPart}
    (h : libParseVariableF parseRange allow source finger = .ok part) :
    LibPartOk part ∧ BoundL source (finger + part.size) := by
  rw [libParseVariableF] at h
  split at h
  · simp at h
  · cases hg : source[finger + 1]? with
    | none => simp [hg] at h
    | some c1 =>
      have hf1lt : finger + 1 < source.length := (List.getElem?_eq_some.mp hg).1
      simp only [hg] at h
      split at h
      · exact libParseBracedVariableF_spec hcb h
      · cases hpos : bytePos (fun c => !(isNameByte c)) (source.drop (finger + 1)) with
        | some x =>
          cases x with
          | zero => simp [hpos] at h
          | succ x1 =>
            simp only [hpos] at h
            have hxlt := bytePos_some_lt hpos
            rw [List.length_drop] at hxlt
            have hprior := bytePos_prior hpos
            split at h
            · cases hchk : checkVariableNameForValidity allow finger
                  (listSlice source (finger + 1) (finger + 1 + (x1 + 1))) with
              | ok u =>
                simp only [hchk, PRes.bind, PRes.ok.injEq] at h
                subst h
                obtain ⟨bb, hbb⟩ := getElem?_exists
                  (l := source) (i := finger + 1 + x1) (by omega)
                have hbbname : isNameByte bb = true := by
                  have := hprior x1 (by omega) bb (by rw [getElem?_drop_add]; exact hbb)
                  simpa using this
                refine ⟨.varNone, Or.inr ⟨bb, ?_, isNameByte_ascii hbbname⟩⟩
                rw [LibPart.size]
                rw [show finger + (finger + 1 + (x1 + 1) - finger) - 1 = finger + 1 + x1
                  from by omega]
                exact hbb
              | err e => simp [hchk, PRes.bind] at h
              | panic => simp [hchk, PRes.bind] at h
              | more => simp [hchk, PRes.bind] at h
            · simp at h
        | none =>
          simp only [hpos] at h
          have hall := bytePos_none hpos
          split at h
          · cases hchk : checkVariableNameForValidity allow finger
                (listSlice source (finger + 1) source.length) with
            | ok u =>
              simp only [hchk, PRes.bind, PRes.ok.injEq] at h
              subst h
              obtain ⟨bb, hbb⟩ := getElem?_exists
                (l := source) (i := source.length - 1) (by omega)
              have hbbmem : bb ∈ source.drop (finger + 1) := by
                apply mem_of_getElem?_drop (i := source.length - 1 - (finger + 1))
                rw [getElem?_drop_add,
                  show finger + 1 + (source.length - 1 - (finger + 1)) = source.length - 1
                    from by omega]
                exact hbb
              have hbbname : isNameByte bb = true := by simpa using hall bb hbbmem
              refine ⟨.varNone, Or.inr ⟨bb, ?_, isNameByte_ascii hbbname⟩⟩
              rw [LibPart.size]
              rw [show finger + (source.length - finger) - 1 = source.length - 1
                from by omega]
              exact hbb
            | err e => simp [hchk, PRes.bind] at h
            | panic => simp [hchk, PRes.bind] at h
            | more => simp [hchk, PRes.bind] at h
          · simp at h

theorem libParseOneStepF_spec {parseVar : Nat → PRes LibPart} {source : Bytes}
    {rstop finger : Nat}
    (hpv : ∀ fg part2, parseVar fg = .ok part2 →
      LibPartOk part2 ∧ BoundL source (fg + part2.size))
    (hu : Utf8V source) (hbl : finger < rstop → BoundLS source finger)
    (hbr : BoundR source rstop)
    {part : LibPart}
    (h : libParseOneStepF parseVar source rstop finger = .ok (some part)) :
    LibPartOk part ∧
    (finger + part.size < rstop → BoundLS source (finger + part.size)) := by
  rw [libParseOneStepF] at h
  split at h
  · simp at h
  · rename_i hflt
    have hbls := hbl (by omega)
    cases hg : source[finger]? with
    | none => simp [hg] at h
    | some c =>
      simp only [hg] at h
      split at h
      · cases hv : parseVar finger with
        | ok part2 =>
          simp only [hv, PRes.map, PRes.ok.injEq, Option.some.injEq] at h
          subst h
          obtain ⟨hok, hb⟩ := hpv finger part2 hv
          exact ⟨hok, fun _ => Or.inl hb⟩
        | err e => simp [hv, PRes.map] at h
        | panic => simp [hv, PRes.map] at h
        | more => simp [hv, PRes.map] at h
      · split at h
        · rename_i hnd hbs
          cases hue : unescapeOne source finger with
          | ok value =>
            simp only [hue, PRes.map, PRes.ok.injEq, Option.some.injEq] at h
            subst h
            obtain ⟨huval, hvasc⟩ := unescapeOne_ok hue
            refine ⟨.escaped hvasc, fun _ => Or.inl (Or.inr ⟨value, ?_, hvasc⟩)⟩
            rw [LibPart.size, show finger + 2 - 1 = finger + 1 from by omega]
            exact huval
          | err e => simp [hue, PRes.map] at h
          | panic => simp [hue, PRes.map] at h
          | more => simp [hue, PRes.map] at h
        · rename_i hnd hns
          have hblx : BoundL source finger := by
            rcases hbls with hb | hb | hb
            · exact hb
            · rw [hg] at hb
              simp at hb
              simp [hb] at hnd
            · rw [hg] at hb
              simp at hb
              simp [hb] at hns
          split at h
          · rename_i hrs
            cases hm : memchr2 0x24 0x5C (listSlice source finger rstop) with
            | none =>
              simp only [hm, PRes.ok.injEq, Option.some.injEq] at h
              subst h
              have hfr : finger ≤ rstop := by omega
              have hlitv : Utf8V (listSlice source finger rstop) :=
                utf8_slice hu hfr hblx hbr
              have hlen : (listSlice source finger rstop).length = rstop - finger :=
                listSlice_length hrs hfr
              refine ⟨.literal hlitv, ?_⟩
              rw [LibPart.size, hlen]
              intro hcon
              omega
            | some x =>
              obtain ⟨cb, hcb2, hcbor⟩ := memchr2_some_get hm
              have hxlen : x < (listSlice source finger rstop).length :=
                (List.getElem?_eq_some.mp hcb2).1
              have hxr : finger + x < rstop := by
                have := listSlice_length hrs (by omega : finger ≤ rstop)
                omega
              rw [listSlice_get? hxr] at hcb2
              have hfxlt : finger + x < source.length := (List.getElem?_eq_some.mp hcb2).1
              simp only [hm, PRes.ok.injEq, Option.some.injEq] at h
              subst h
              have hcbasc : cb < 0x80 := by rcases hcbor with rfl | rfl <;> omega
              have hlitv : Utf8V (listSlice source finger (finger + x)) :=
                utf8_slice hu (Nat.le_add_right _ _) hblx (Or.inr ⟨cb, hcb2, hcbasc⟩)
              have hlen : (listSlice source finger (finger + x)).length = x := by
                rw [listSlice_length (by omega) (Nat.le_add_right _ _)]
                omega
              refine ⟨.literal hlitv, fun _ => Or.inr ?_⟩
              rw [LibPart.size, hlen]
              rcases hcbor with rfl | rfl
              · exact Or.inl hcb2
              · exact Or.inr hcb2
          · simp at h

theorem libParseRangeGo_ok : ∀ (f : Nat) (allow : Bool) (source : Bytes)
    (rstop finger : Nat) (parts : List LibPart),
    Utf8V source →
    libParseRangeGo f allow source rstop finger = .ok parts →
    (finger < rstop → BoundLS source finger) →
    BoundR source rstop →
    ∀ p ∈ parts, LibPartOk p := by
  intro f
  induction f with
  | zero =>
    intro allow source rstop finger parts _ h _ _
    simp [libParseRangeGo] at h
  | succ f ih =>
    intro allow source rstop finger parts hu h hbl hbr
    rw [libParseRangeGo] at h
    cases hstep : libParseOneStepF
        (libParseVariableF (fun a b => libParseRangeGo f allow source b a) allow source)
        source rstop finger with
    | ok oPart =>
      cases oPart with
      | none =>
        simp only [hstep, PRes.ok.injEq] at h
        subst h
        simp
      | some part =>
        simp only [hstep] at h
        cases hrest : libParseRangeGo f allow source rstop (finger + part.size) with
        | ok rest =>
          simp only [hrest, PRes.map, PRes.ok.injEq] at h
          subst h
          have hcb : LibCbSpec (fun a b => libParseRangeGo f allow source b a) source :=
            fun rs re ps hps hl hr2 =>
              ih allow source re rs ps hu hps (fun _ => Or.inl hl) hr2
          have hpv : ∀ fg part2,
              libParseVariableF (fun a b => libParseRangeGo f allow source b a)
                allow source fg = .ok part2 →
              LibPartOk part2 ∧ BoundL source (fg + part2.size) :=
            fun fg part2 hp2 => libParseVariableF_spec hcb hp2
          obtain ⟨hok, hnb⟩ := libParseOneStepF_spec hpv hu hbl hbr hstep
          have hrestok := ih allow source rstop (finger + part.size) rest hu hrest hnb hbr
          intro p hp
          rcases List.mem_cons.mp hp with rfl | hp2
          · exact hok
          · exact hrestok p hp2
        | err e => simp [hrest, PRes.map] at h
        | panic => simp [hrest, PRes.map] at h
        | more => simp [hrest, PRes.map] at h
    | err e => simp [hstep] at h
    | panic => simp [hstep] at h
    | more => simp [hstep] at h

theorem libExpandGo_utf8 : ∀ (f : Nat) (silent : Bool) (vars : VarMap)
    (parts : List LibPart) (out res : Bytes),
    (∀ n v, vars n = some v → Utf8V v) →
    (∀ p ∈ parts, LibPartOk p) → Utf8V out →
    libExpandGo f silent vars parts out = .ok res → Utf8V res := by
  intro f
  induction f with
  | zero =>
    intro silent vars parts out res _ _ _ h
    simp [libExpandGo] at h
  | succ f ih =>
    intro silent vars parts out res hvals hparts hout h
    cases parts with
    | nil =>
      rw [libExpandGo] at h
      simp only [PRes.ok.injEq] at h
      subst h
      exact hout
    | cons p rest =>
      have hpok := hparts p (by simp)
      have hrestok : ∀ q ∈ rest, LibPartOk q := fun q hq => hparts q (by simp [hq])
      cases p with
      | literal t =>
        rw [libExpandGo] at h
        cases hpok with
        | literal hv =>
          exact ih silent vars rest (out ++ t) res hvals hrestok (hout.append hv) h
      | escapedChar c =>
        rw [libExpandGo] at h
        cases hpok with
        | escaped hc =>
          exact ih silent vars rest (out ++ [c]) res hvals hrestok
            (hout.append (.one hc .nil)) h
      | «variable» ps pe nm ns df =>
        rw [libExpandGo] at h
        cases hres : libExpandVariableF (fun d o => libExpandGo f silent vars d o)
            silent vars nm ns df out with
        | ok out2 =>
          have hout2 : Utf8V out2 := by
            cases hv : vars nm with
            | some value =>
              simp only [libExpandVariableF, hv, PRes.ok.injEq] at hres
              subst hres
              exact hout.append (hvals nm value hv)
            | none =>
              cases df with
              | none =>
                simp only [libExpandVariableF, hv] at hres
                split at hres
                · simp at hres
                · simp only [PRes.ok.injEq] at hres
                  subst hres
                  exact hout
              | some d =>
                simp only [libExpandVariableF, hv] at hres
                cases hpok with
                | varSome hdok =>
                  exact ih silent vars d out out2 hvals hdok hout hres
          simp only [hres] at h
          exact ih silent vars rest out2 res hvals hrestok hout2 h
        | err e => simp [hres] at h
        | panic => simp [hres] at h
        | more => simp [hres] at h

theorem rawExpandGo_utf8 : ∀ (f : Nat) (src : Bytes) (vars : VarMap)
    (parts : List RawPart) (out res : Bytes),
    (∀ n v, vars n = some v → Utf8V v) →
    (∀ p ∈ parts, RawOk src p) → Utf8V out →
    rawExpandGo f src vars parts out = .ok res → Utf8V res := by
  intro f
  induction f with
  | zero =>
    intro src vars parts out res _ _ _ h
    simp [rawExpandGo] at h
  | succ f ih =>
    intro src vars parts out res hvals hparts hout h
    cases parts with
    | nil =>
      rw [rawExpandGo] at h
      simp only [PRes.ok.injEq] at h
      subst h
      exact hout
    | cons p rest =>
      have hpok := hparts p (by simp)
      have hrestok : ∀ q ∈ rest, RawOk src q := fun q hq => hparts q (by simp [hq])
      cases p with
      | literal a b =>
        rw [rawExpandGo] at h
        split at h
        · cases hpok with
          | literal ha hb hv =>
            exact ih src vars rest (out ++ listSlice src a b) res hvals hrestok
              (hout.append hv) h
        · simp at h
      | escapedByte v =>
        rw [rawExpandGo] at h
        cases hpok with
        | escaped hc =>
          exact ih src vars rest (out ++ [v]) res hvals hrestok
            (hout.append (.one hc .nil)) h
      | «variable» ns ne df =>
        rw [rawExpandGo] at h
        cases hres : rawExpandVariableF (fun d o => rawExpandGo f src vars d o)
            src vars ns ne df out with
        | ok out2 =>
          have hout2 : Utf8V out2 := by
            simp only [rawExpandVariableF] at hres
            split at hres
            · split at hres
              · cases hv : vars (listSlice src ns ne) with
                | some value =>
                  simp only [hv, PRes.ok.injEq] at hres
                  subst hres
                  exact hout.append (hvals _ value hv)
                | none =>
                  simp only [hv] at hres
                  cases df with
                  | none => simp at hres
                  | some d =>
                    cases hpok with
                    | varSome hdok =>
                      exact ih src vars d out out2 hvals hdok hout hres
              · simp at hres
            · simp at hres
          simp only [hres] at h
          exact ih src vars rest out2 res hvals hrestok hout2 h
        | err e => simp [hres] at h
        | panic => simp [hres] at h
        | more => simp [hres] at h

/-! ### Claim theorems: C8 -/

/-- C8: the text-oriented substitution entry points produce valid UTF-8
whenever the source and all map values are valid UTF-8, so the
`String::from_utf8_unchecked` conversions are sound.  First conjunct:
`substitute` from `lib.rs`; second: the raw pipeline of
`Template::from_str` followed by `Template::expand`. -/
theorem subst_c8 :
    (∀ (f : Nat) (source : Bytes) (vars : VarMap) (out : Bytes),
        Utf8V source → (∀ n v, vars n = some v → Utf8V v) →
        libSubstituteF f source vars = .ok out → Utf8V out) ∧
    (∀ (source : Bytes) (raw : List RawPart) (vars : VarMap) (f : Nat) (out : Bytes),
        Utf8V source → (∀ n v, vars n = some v → Utf8V v) →
        templateFromSource source = .ok raw →
        rawExpandGo f source vars raw [] = .ok out → Utf8V out) := by
  constructor
  · intro f source vars out hu hv hsub
    rw [libSubstituteF] at hsub
    cases hp : libParseRangeGo f true source source.length 0 with
    | ok parts =>
      simp only [hp, PRes.bind] at hsub
      have hparts := libParseRangeGo_ok f true source source.length 0 parts hu hp
        (fun _ => Or.inl (Or.inl rfl)) (Or.inl rfl)
      exact libExpandGo_utf8 f _ vars parts [] out hv hparts .nil hsub
    | err e => simp [hp, PRes.bind] at hsub
    | panic => simp [hp, PRes.bind] at hsub
    | more => simp [hp, PRes.bind] at hsub
  · intro source raw vars f out hu hv hparse hexp
    have hok := (rawParseGo_spec (bigFuel source) source 0 raw hparse).2.1 hu (Or.inl rfl)
    exact rawExpandGo_utf8 f source vars raw [] out hv hok .nil hexp

/-- C8, witness: both conjuncts at concrete inputs (the greeting template
with the name bound to the text world; the nested-default template with
the empty map). -/
theorem subst_c8_witness :
    Utf8V [72, 101, 108, 108, 111, 32, 119, 111, 114, 108, 100, 33] ∧ Utf8V cruelWorld := by
  constructor
  · refine subst_c8.1 (bigFuel [72, 101, 108, 108, 111, 32, 36, 110, 97, 109, 101, 33])
      [72, 101, 108, 108, 111, 32, 36, 110, 97, 109, 101, 33]
      (fun n => if n = [110, 97, 109, 101] then some [119, 111, 114, 108, 100] else none)
      _ (ascii_utf8 (by decide)) ?_ rfl
    intro n v h
    simp only at h
    by_cases hn : n = [110, 97, 109, 101]
    · rw [if_pos hn] at h
      simp only [Option.some.injEq] at h
      subst h
      exact ascii_utf8 (by decide)
    · rw [if_neg hn] at h
      exact absurd h (by simp)
  · exact subst_c8.2 cruelSrc
      [RawPart.variable 2 3 (some [RawPart.literal 4 10,
        RawPart.variable 12 13 (some [RawPart.literal 14 19])])]
      (fun _ => none) (bigFuel cruelSrc) cruelWorld
      (ascii_utf8 (by decide)) (fun n v h => by exact absurd h (by simp)) rfl rfl
